import Mathlib
/-!
Verification of the rewriting compressor for JSON (RCFJ).

This file gives a shallow embedding of the core of the repository:

* `LiteralOptimizers.py` — shortest-text rendering of scalar literals
  (`optimal_int`, `optimal_float`, `optimal_boolean`, `optimal_null`,
  `optimal_string`, `optimal`);
* `RCFJ.py` — the identifier generator (`VariableGenerator`), the proposal
  model (`Proposal`, `SymbolizedLiteralProposal.applies`,
  `RecordProposal.applies`), the serializer (`writeJSON`) and the greedy
  assigner (`assign_proposals_greedy`).

Python `int` is modelled as `Int`, Python `decimal.Decimal` as an exact
sign/coefficient/exponent triple (the program parses all JSON floats with
`parse_float=decimal.Decimal`, so non-integer numbers in the value tree are
exact decimals).  Generators are modelled as the lists of the values they
yield; a Python loop without a structural decrease is modelled with an
explicit fuel argument that is provably (or by construction) sufficient.
Code that can raise returns `Option`/`Except`-style values: `none` marks the
raising path.
-/

set_option maxRecDepth 100000
set_option maxHeartbeats 1000000
namespace RCFJ

/-! ### Decimal / hexadecimal digit strings

`toRevDigits b fuel n` is the little-endian base-`b` digit list of `n`,
with `fuel ≥ n` sufficient for the recursion to complete.  It models the
digit sequence produced by Python's `'%d' % n` / `hex(n)` formatting. -/

def toRevDigits (b : Nat) : Nat → Nat → List Nat
  | 0, _ => []
  | fuel + 1, n => if n = 0 then [] else n % b :: toRevDigits b fuel (n / b)

/-- Value of a little-endian digit list in base `b`. -/
def decValue (b : Nat) (L : List Nat) : Nat :=
  L.foldr (fun d r => d + b * r) 0

/-- Rendering of a nonnegative integer in decimal, as Python `'%d' % n`. -/
def natRepr (n : Nat) : String :=
  if n = 0 then "0"
  else String.mk ((toRevDigits 10 n n).map Nat.digitChar).reverse

/-- Rendering of an integer in decimal, as Python `'%d' % i`. -/
def intRepr (i : Int) : String :=
  if i < 0 then "-" ++ natRepr i.natAbs else natRepr i.natAbs

/-- Hex digit rendering of a nonnegative integer (lowercase, `0x` marker),
the magnitude part of Python 2 `hex`. -/
def hexNatRepr (n : Nat) : String :=
  "0x" ++ (if n = 0 then "0"
           else String.mk ((toRevDigits 16 n n).map Nat.digitChar).reverse)

/-- Rendering of an integer as Python 2 `hex(i)`: negative integers get a
leading minus sign, and a value of Python type `long` gets a trailing `L`.
The integers this program feeds to `hex` come from `int(numstr)` in the
JSON parser or `int(math.floor(f))`, both of which produce a `long` exactly
when the value falls outside the machine-int range
`[-2^63, 2^63 - 1]` (`sys.maxint = 2^63 - 1` on the 64-bit builds the
program targets), so the suffix is keyed on magnitude. -/
def hexRepr (i : Int) : String :=
  (if i < 0 then "-" ++ hexNatRepr i.natAbs else hexNatRepr i.natAbs)
    ++ (if i < -(2 ^ 63) ∨ (2 ^ 63 - 1 : Int) < i then "L" else "")

/-! ### A permissive JS numeric-literal evaluator

The round-trip claims quantify over "parsing with a permissive JS-literal
evaluator", which is not part of the repository.  The evaluator below
accepts exactly the shapes of JavaScript integer literals the formatter can
emit: plain decimal digits, `<mantissa>e<exponent>` shorthand, `0x...`
hexadecimal, each optionally preceded by a unary minus. -/

def digVal (c : Char) : Nat := c.toNat - 48

def isHexDig (c : Char) : Bool := c.isDigit || ('a' ≤ c && c ≤ 'f')

def hexVal (c : Char) : Nat := if c.isDigit then digVal c else c.toNat - 87

def parseDecNat (cs : List Char) : Option Nat :=
  if cs.isEmpty || !cs.all Char.isDigit then none
  else some (cs.foldl (fun a c => a * 10 + digVal c) 0)

def parseHexNat (cs : List Char) : Option Nat :=
  if cs.isEmpty || !cs.all isHexDig then none
  else some (cs.foldl (fun a c => a * 16 + hexVal c) 0)

def parseUnsignedLit (cs : List Char) : Option Nat :=
  if cs.take 2 = ['0', 'x'] then parseHexNat (cs.drop 2)
  else
    let m := cs.takeWhile (· != 'e')
    match cs.dropWhile (· != 'e') with
    | [] => parseDecNat m
    | _ :: ex => do
        let mv ← parseDecNat m
        let ev ← parseDecNat ex
        pure (mv * 10 ^ ev)

def parseIntLit (s : String) : Option Int :=
  match s.data with
  | [] => none
  | c :: cs =>
      if c = '-' then (parseUnsignedLit cs).map (fun n : Nat => -(n : Int))
      else (parseUnsignedLit (c :: cs)).map (fun n : Nat => (n : Int))

/-! ### `LiteralOptimizers.optimal_int` -/

/-- The `while i % power == 0: power *= 10` loop of `optimal_int`,
with explicit fuel (the loop exits before `|i|` iterations because the
power grows past `|i|`). -/
def power_loop (i : Int) : Nat → Nat → Nat
  | 0, power => power
  | fuel + 1, power =>
      if i % (power : Int) = 0 then power_loop i fuel (power * 10) else power

/-- Python `int(math.log10 n)` for a positive integer `n`, modelled as the
exact value: the number of decimal digits minus one.  The Python code only
applies `math.log10` to exact powers of ten `10^K`, `K >= 3`.  For
`10^K <= sys.maxint` (that is `K <= 18`) the argument converts to an exact
IEEE double and `math.log10` returns exactly `K`, so the model is faithful
there.  For larger powers CPython 2 routes `long` arguments through
`loghelper`, which computes `log10(m) + e*log10(2)` in doubles; that
approximation can fall just below the integer (`int(math.log10(10**512))`
is `511`), so on those inputs the program diverges from this exact model.
That divergence is recorded against the round-trip and exponent-form
claims rather than papered over: no claim below asserts program
faithfulness of the exponent text beyond the exact regime. -/
def log10floor (n : Nat) : Nat := (toRevDigits 10 n n).length - 1

/-- Model of `LiteralOptimizers.optimal_int(i, allowHex)`. -/
def optimal_int (i : Int) (allowHex : Bool) : String :=
  let normal := intRepr i
  let normal :=
    if i % 1000 = 0 ∧ i ≠ 0 then
      let power := power_loop i i.natAbs 1000 / 10
      intRepr (Int.fdiv i power) ++ "e" ++ natRepr (log10floor power)
    else normal
  if allowHex && (hexRepr i).length < normal.length then hexRepr i
  else normal

/-- The hexadecimal digit characters of `hexNatRepr n` (after the `0x`). -/
def hexDigitsOf (n : Nat) : List Char :=
  if n = 0 then ['0'] else ((toRevDigits 16 n n).map Nat.digitChar).reverse

/-! ### `RCFJ.VariableGenerator`

The Python generator keeps a digit state `state` (most significant first),
initialized to `[0]*length` with `state[0] = -1`, increments `state[-1]`,
runs one right-to-left carry pass per iteration, and yields the rendered
name unless it is a keyword of the right length.  We model the state as the
REVERSED (little-endian) digit list, so the head is the last character
position and the final element is character position 0 (whose alphabet is
`VARIABLE_START` instead of `VARIABLE_MID`).  The generator is modelled as
the list of all names it yields. -/

def VARIABLE_START : List Char :=
  "abcdefghijklmnopqrstuvwxyzABCDEFGHIJKLMNOPQRSTUVWXYZ_$".data

def VARIABLE_MID : List Char := VARIABLE_START ++ "0123456789".data

def KEYWORDS : List String :=
  ["false", "debugger", "synchronized", "int", "abstract", "float",
   "private", "self", "char", "interface", "boolean", "export", "in", "null",
   "if", "true", "const", "for", "with", "top", "NaN", "while", "long",
   "throw", "finally", "protected", "extends", "implements", "var", "import",
   "native", "final", "location", "function", "do", "return", "goto", "void",
   "enum", "else", "break", "transient", "window", "new", "catch",
   "instanceof", "byte", "super", "class", "volatile", "case", "short",
   "undefined", "package", "default", "double", "public", "try", "this",
   "switch", "continue", "typeof", "static", "throws", "delete"]

/-- Python list indexing `l[i]`: a negative index counts from the end
(`l[-1]` is the last element).  Out-of-range indices raise in Python and are
never reached here; they give `'?'`, a character outside both alphabets. -/
def pyChar (l : List Char) (i : Int) : Char :=
  if 0 ≤ i then l.getD i.toNat '?'
  else if i.natAbs ≤ l.length then l.getD (l.length - i.natAbs) '?'
  else '?'

/-- The right-to-left carry pass of `VariableGenerator` (`i` from
`length-1` down to `0`), acting on the little-endian state.  `d` is the
digit currently examined; the list holds the remaining (more significant)
digits, its final element being character position 0.  `none` models the
generator's `return` when position 0 reaches `len(VARIABLE_START)`. -/
def carryPass (d : Int) : List Int → Option (List Int)
  | [] => if (VARIABLE_START.length : Int) ≤ d then none else some [d]
  | e :: rest =>
      if (VARIABLE_MID.length : Int) ≤ d then
        (carryPass (e + 1) rest).map (fun t => 0 :: t)
      else
        (carryPass e rest).map (fun t => d :: t)

/-- One iteration of the generator's `while True` loop: `state[-1] += 1`
followed by the carry pass. -/
def genStep : List Int → Option (List Int)
  | [] => some []
  | d :: rest => carryPass (d + 1) rest

/-- Render the (little-endian) state as a name: character position 0 indexes
`VARIABLE_START`, the rest index `VARIABLE_MID`. -/
def buildName (st : List Int) : String :=
  match st.reverse with
  | [] => ""
  | d :: rest => String.mk (pyChar VARIABLE_START d :: rest.map (pyChar VARIABLE_MID))

/-- The loop of `VariableGenerator`, with fuel bounding the number of
iterations (the odometer provably overflows long before the fuel runs out).
Yielded names are collected in `acc` (in reverse), keeping the recursion
tail-recursive so that concrete runs evaluate inside the kernel. -/
def genLoop (kws : List String) : Nat → List Int → List String → List String
  | 0, _, acc => acc.reverse
  | fuel + 1, st, acc =>
      match genStep st with
      | none => acc.reverse
      | some st' =>
          let name := buildName st'
          if kws.contains name then genLoop kws fuel st' acc
          else genLoop kws fuel st' (name :: acc)

/-- Model of `RCFJ.VariableGenerator(length)`, as the list of all yielded names.
The initial state is `[0]*length` with `state[0] = -1`; little-endian this
is `[0, ..., 0, -1]`. -/
def VariableGenerator (length : Nat) : List String :=
  genLoop (KEYWORDS.filter (fun x => x.length == length)) (64 ^ length * 2)
    (List.replicate (length - 1) 0 ++ [-1]) []

/-! ### Analyzing the length-2 generator

Evaluating `VariableGenerator 2` (3516 names) directly exceeds the
kernel's reduction depth, so we characterize it symbolically.  For a
length-2 state `[d0, a]` (little-endian) the step function either advances
`d0` within the row of first-character index `a`, or carries into the next
row.  The names the loop still yields from such a state are: the rest of
row `a`, then all rows `a+1 .. 53`, each filtered by the keyword list. -/

/-- The length-2 name with first-character index `a` and second-character
index `j`. -/
def mkName2 (a : Int) (j : Nat) : String :=
  String.mk [pyChar VARIABLE_START a, pyChar VARIABLE_MID (j : Int)]

/-- The keywords of length 2. -/
def kw2 : List String := ["in", "if", "do"]

/-- The names of row `a` from second-character index `j0` on, keywords
removed. -/
def rowFrom (kws : List String) (a : Int) (j0 : Nat) : List String :=
  ((List.range' j0 (64 - j0)).map (mkName2 a)).filter (fun s => !kws.contains s)

/-- All names of `rows` consecutive full rows starting at first-character
index `a`, keywords removed. -/
def genRows (kws : List String) : Nat → Int → List String
  | 0, _ => []
  | rows + 1, a => rowFrom kws a 0 ++ genRows kws rows (a + 1)

/-- Invariant of the generator state (little-endian): every digit is
nonnegative except possibly the final one (character position 0), which may
be `-1` (its initial value). -/
def StOK : List Int → Prop
  | [] => True
  | [d] => -1 ≤ d
  | d :: e :: rest => 0 ≤ d ∧ StOK (e :: rest)

/-- Bounds of a state just produced by a successful carry pass: every digit
is a valid index into its alphabet (position 0 may still be `-1`). -/
def StRanged : List Int → Prop
  | [] => True
  | [d] => -1 ≤ d ∧ d < 54
  | d :: e :: rest => 0 ≤ d ∧ d < 64 ∧ StRanged (e :: rest)

/-- The identifier grammar of the claims: first character from
`VARIABLE_START`, later characters from `VARIABLE_MID`. -/
def isValidIdentifier (s : String) : Bool :=
  match s.data with
  | [] => false
  | c :: cs => VARIABLE_START.contains c && cs.all (fun d => VARIABLE_MID.contains d)

/-! ### `decimal.Decimal` and `LiteralOptimizers.optimal_float`

The program reads its input with `json.load(..., parse_float=decimal.Decimal)`,
so every non-integer number in the value tree is an exact decimal.  A finite
`Decimal` is its sign, coefficient digit string (`_int`) and exponent
(`_exp`). -/

structure Dec where
  sign : Bool
  digits : List Nat
  exp : Int

/-- Numeric value of the coefficient digit string. -/
def decCoeff (d : Dec) : Nat := d.digits.foldl (fun a x => a * 10 + x) 0

/-- Python 2 `Decimal.__str__` for finite values (`context.capitals = 1`,
so the exponent marker is always an uppercase `E` with an explicit sign). -/
def decStr (d : Dec) : String :=
  let sign := if d.sign then "-" else ""
  let leftdigits : Int := d.exp + d.digits.length
  let dotplace : Int := if d.exp ≤ 0 ∧ leftdigits > -6 then leftdigits else 1
  let digitsChars := d.digits.map Nat.digitChar
  let intpart : List Char :=
    if dotplace ≤ 0 then ['0']
    else if (digitsChars.length : Int) ≤ dotplace then
      digitsChars ++ List.replicate (dotplace.toNat - digitsChars.length) '0'
    else digitsChars.take dotplace.toNat
  let fracpart : List Char :=
    if dotplace ≤ 0 then '.' :: (List.replicate (-dotplace).toNat '0' ++ digitsChars)
    else if (digitsChars.length : Int) ≤ dotplace then []
    else '.' :: digitsChars.drop dotplace.toNat
  let exppart : String :=
    if leftdigits = dotplace then ""
    else "E" ++ (if 0 ≤ leftdigits - dotplace then "+" else "-")
      ++ natRepr (leftdigits - dotplace).natAbs
  sign ++ String.mk intpart ++ String.mk fracpart ++ exppart

/-- Python `abs(f)` on a Decimal. -/
def decAbs (d : Dec) : Dec := { d with sign := false }

/-- Python `f < 0` on a Decimal (negative zero is not `< 0`). -/
def decIsNeg (d : Dec) : Bool := d.sign && decCoeff d != 0

/-- Python `int(math.floor(f))`: the floor of the decimal's value.  (CPython routes
`math.floor` through a C double; the conversion is exact throughout the
supported range, so the floor is modelled exactly.) -/
def decFloorInt (d : Dec) : Int :=
  let c := decCoeff d
  if 0 ≤ d.exp then
    let v : Int := (c : Int) * 10 ^ d.exp.toNat
    if d.sign then -v else v
  else
    let div := 10 ^ (-d.exp).toNat
    let q : Int := (c / div : Nat)
    if d.sign then (if c % div = 0 then -q else -q - 1) else q

/-- Python `int(f) == f`: whether the decimal is integral. -/
def decIsIntegral (d : Dec) : Bool :=
  decide (0 ≤ d.exp) || decCoeff d % 10 ^ (-d.exp).toNat == 0

/-- Python `str.lstrip('0')`: strip ALL leading `'0'` characters. -/
def lstrip0 (s : String) : String := String.mk (s.data.dropWhile (· = '0'))

/-- Python `int(...)` on the exponent text of a float `repr` (an optionally
signed digit string); only reachable from the dead lowercase-`e` branch of
`optimal_float`. -/
def pyIntOfString (cs : List Char) : Int :=
  match cs with
  | '-' :: rest => -((rest.foldl (fun a c => a * 10 + digVal c) 0 : Nat) : Int)
  | '+' :: rest => ((rest.foldl (fun a c => a * 10 + digVal c) 0 : Nat) : Int)
  | _ => ((cs.foldl (fun a c => a * 10 + digVal c) 0 : Nat) : Int)

/-- The `sigdigits=None` body of `LiteralOptimizers.optimal_float`, for
Decimal inputs: `str(abs(f)).lstrip('0')`, sign restoration, the (dead for
Decimals, whose `str` uses `'E'`) lowercase-exponent minimization, then the
comparison against the integer rendering. -/
def optimal_float_nosig (f : Dec) (allowHex : Bool) : String :=
  let floatversion := lstrip0 (decStr (decAbs f))
  let floatversion := if decIsNeg f then "-" ++ floatversion else floatversion
  let floatversion :=
    if 'e' ∈ floatversion.data then
      let digits := floatversion.data.takeWhile (· != 'e')
      let expo := (floatversion.data.dropWhile (· != 'e')).drop 1
      String.mk digits ++ "E" ++ optimal_int (pyIntOfString expo) false
    else floatversion
  let integerversion := optimal_int (decFloorInt f) allowHex
  if decIsIntegral f ∧ integerversion.length ≤ floatversion.length then integerversion
  else floatversion

/-- Rounding of `Decimal(f) + 0` under a context precision `p` with
`ROUND_HALF_EVEN` (the `sigdigits` branch of `optimal_float` implements the
significant-figure rounding by temporarily mutating the ambient decimal
context).  For `p ≤ 0` the pure-Python decimal module's behavior is outside
its documented domain (no `InvalidConfiguration` validation exists anywhere
in the program — see the C9 analysis); no theorem relies on this case. -/
def decRoundSig (d : Dec) (p : Int) : Dec :=
  if 0 < p ∧ p < (d.digits.length : Int) then
    let keep := p.toNat
    let dropped := d.digits.length - keep
    let div := 10 ^ dropped
    let c := decCoeff d
    let q := c / div
    let r := c % div
    let half := div / 2
    let q' := if half < r ∨ (r = half ∧ q % 2 = 1) then q + 1 else q
    { sign := d.sign,
      digits := if q' = 0 then [0] else ((toRevDigits 10 q' q').reverse),
      exp := d.exp + dropped }
  else d

/-- Model of `LiteralOptimizers.optimal_float(f, sigdigits, allowHex)` on Decimals. -/
def optimal_float (f : Dec) (sigdigits : Option Int) (allowHex : Bool) : String :=
  match sigdigits with
  | none => optimal_float_nosig f allowHex
  | some p => optimal_float_nosig (decRoundSig f p) allowHex

/-- Model of `LiteralOptimizers.optimal_boolean`. -/
def optimal_boolean (b : Bool) (allowBooleanNumbers : Bool) : String :=
  if allowBooleanNumbers then (if b then "1" else "0")
  else (if b then "true" else "false")

/-- Model of `LiteralOptimizers.optimal_null`. -/
def optimal_null : String := "null"

/-- One `\uXXXX` hex quadruple (lowercase, as Python's `'\u%04x'`). -/
def escHex4 (n : Nat) : List Char :=
  [Nat.digitChar (n / 4096 % 16), Nat.digitChar (n / 256 % 16),
   Nat.digitChar (n / 16 % 16), Nat.digitChar (n % 16)]

/-- Escaping of one character, as Python 2 `json.dumps` with the default
`ensure_ascii=True`: named escapes for the common control characters, quote
and backslash; `\uXXXX` for every other character outside `' '..'~'`, with
surrogate pairs above the BMP. -/
def escChar (c : Char) : List Char :=
  let n := c.toNat
  if c = '\\' then ['\\', '\\']
  else if c = '"' then ['\\', '"']
  else if c = '\x08' then ['\\', 'b']
  else if c = '\x0c' then ['\\', 'f']
  else if c = '\n' then ['\\', 'n']
  else if c = '\r' then ['\\', 'r']
  else if c = '\t' then ['\\', 't']
  else if n < 0x20 ∨ 0x7e < n then
    if n ≤ 0xffff then '\\' :: 'u' :: escHex4 n
    else ('\\' :: 'u' :: escHex4 (0xd800 + (n - 0x10000) / 1024))
      ++ ('\\' :: 'u' :: escHex4 (0xdc00 + (n - 0x10000) % 1024))
  else [c]

/-- Model of `LiteralOptimizers.optimal_string`: `json.dumps(s)`. -/
def optimal_string (s : String) : String :=
  "\"" ++ String.mk (s.data.flatMap escChar) ++ "\""

/-! ### The value tree and `RCFJ.writeJSON` -/

/-- The JSON-like value tree.  Objects are ordered association lists (the
Python implementation iterates a `dict`; insertion order is preserved for
deterministic output and keys are unique).  `expr` is a
`JavascriptExpression`. -/
inductive Value where
  | null
  | bool (b : Bool)
  | int (i : Int)
  | float (d : Dec)
  | str (s : String)
  | list (items : List Value)
  | dict (entries : List (String × Value))
  | expr (code : String)

/-- Write-out options, as the dictionary of `get_default_options`. -/
structure Options where
  keysAreStrings : Bool
  allowHex : Bool
  allowBooleanNumbers : Bool
  significantFigures : Option Int

/-- Model of `RCFJ.get_default_options()`. -/
def get_default_options : Options :=
  { keysAreStrings := true, allowHex := false, allowBooleanNumbers := false,
    significantFigures := none }

/-- Model of `LiteralOptimizers.optimal(struct, options)`: dispatch on the scalar
kind (the source tests `bool` before `int` because `isinstance(True, int)`
holds in Python; the tags here are disjoint).  `none` models the
`IncontrovertiblyInconvertible` raise for non-scalar input. -/
def optimal (struct : Value) (options : Options) : Option String :=
  match struct with
  | .bool b => some (optimal_boolean b options.allowBooleanNumbers)
  | .float d => some (optimal_float d options.significantFigures options.allowHex)
  | .int i => some (optimal_int i options.allowHex)
  | .str s => some (optimal_string s)
  | .null => some optimal_null
  | _ => none

/-- The numeric value of a Python number as a scaled integer
`(n, s) ↦ n / 10^s`. -/
def decScaled (d : Dec) : Int × Nat :=
  let c : Int := if d.sign then -(decCoeff d : Int) else (decCoeff d : Int)
  if 0 ≤ d.exp then (c * 10 ^ d.exp.toNat, 0) else (c, (-d.exp).toNat)

/-- Numeric view of a value: Python compares booleans, ints and decimals by
numeric value (`True == 1`, `0 == Decimal('0.0')`, ...). -/
def numView : Value → Option (Int × Nat)
  | .bool b => some (if b then 1 else 0, 0)
  | .int i => some (i, 0)
  | .float d => some (decScaled d)
  | _ => none

def numEqB (x y : Int × Nat) : Bool := x.1 * 10 ^ y.2 == y.1 * 10 ^ x.2

mutual

/-- Python `==` on value trees: numbers compare by numeric value across the
`bool`/`int`/`float` tags, strings by content, lists elementwise, dicts by
key set and per-key values (order-independent).  Two
`JavascriptExpression`s compare by object identity in Python; occurrences
of the same expression object are modelled as equal `expr` values. -/
def pyEq : Value → Value → Bool
  | .list xs, .list ys => pyEqList xs ys
  | .dict xs, .dict ys => pyEqDict xs ys
  | v, w =>
      match numView v, numView w with
      | some x, some y => numEqB x y
      | _, _ =>
          match v, w with
          | .str s, .str t => s == t
          | .null, .null => true
          | .expr s, .expr t => s == t
          | _, _ => false

def pyEqList : List Value → List Value → Bool
  | [], [] => true
  | x :: xs, y :: ys => pyEq x y && pyEqList xs ys
  | _, _ => false

def pyEqDict (xs ys : List (String × Value)) : Bool :=
  xs.length == ys.length && pyEqEntries xs ys

def pyEqEntries : List (String × Value) → List (String × Value) → Bool
  | [], _ => true
  | (k, v) :: rest, ys =>
      (match ys.lookup k with
       | some w => pyEq v w
       | none => false) && pyEqEntries rest ys

end

/-! ### Proposals -/

/-- The payload distinguishing the two `Proposal` subclasses:
`SymbolizedLiteralProposal` carries its `value`, `RecordProposal` its
sorted key tuple `keys`. -/
inductive ProposalKind where
  | literal (value : Value)
  | record (keys : List String)

/-- Model of `RCFJ.Proposal`: the savings function, the foreword template, the
subclass payload and the assigned variable (`None` before `assign`). -/
structure Proposal where
  savings : Nat → Int
  foreword : String
  kind : ProposalKind
  variable' : Option String := none

/-- Model of `Proposal.assign`. -/
def Proposal.assign (p : Proposal) (v : String) : Proposal :=
  { p with variable' := some v }

/-- Stable insertion into a descending-sorted list: the new element goes
before the first element whose key is not larger. -/
def insertDesc (key : Proposal → Int) (p : Proposal) : List Proposal → List Proposal
  | [] => [p]
  | q :: qs => if key q ≤ key p then p :: q :: qs else q :: insertDesc key p qs

/-- Python `list.sort(key=..., reverse=True)`: the stable descending sort (which
is unique as a function, whatever algorithm produces it). -/
def sortDesc (key : Proposal → Int) : List Proposal → List Proposal
  | [] => []
  | p :: ps => insertDesc key p (sortDesc key ps)

/-- Python 2 `list.sort()` on strings (ascending lexicographic), used on
`struct.keys()`. -/
def insertStr (s : String) : List String → List String
  | [] => [s]
  | t :: ts => if s < t then s :: t :: ts else t :: insertStr s ts

def pySortStrings : List String → List String
  | [] => []
  | s :: ss => insertStr s (pySortStrings ss)

/-- Model of `SymbolizedLiteralProposal.applies` / `RecordProposal.applies`: the
literal proposal tests `struct == self.value` (Python equality); the record
proposal tests `isinstance(struct, dict)` and compares the sorted key list
with its key tuple. -/
def Proposal.applies (p : Proposal) (struct : Value) : Bool :=
  match p.kind with
  | .literal value => pyEq struct value
  | .record keys =>
      match struct with
      | .dict entries => pySortStrings (entries.map Prod.fst) == keys
      | _ => false

/-- The `for proposal in proposals: if proposal.applies(struct): ...` scan
of `writeJSON`: the first applicable proposal, if any. -/
def firstApplying (proposals : List Proposal) (struct : Value) : Option Proposal :=
  match proposals with
  | [] => none
  | p :: ps => if p.applies struct then some p else firstApplying ps struct

/-- A value found by `List.lookup` is structurally smaller than the entry
list.  This sits among the definitions because the termination proof of the
mutual definition just below requires it. -/
theorem sizeOf_lookup {k : String} {entries : List (String × Value)} {v : Value}
    (h : entries.lookup k = some v) : sizeOf v < sizeOf entries := by
  induction entries with
  | nil => simp [List.lookup] at h
  | cons e rest ih =>
      obtain ⟨k', v'⟩ := e
      rw [List.lookup] at h
      cases hk : (k == k') with
      | true =>
          simp only [hk] at h
          obtain rfl := Option.some_inj.mp h
          simp
          omega
      | false =>
          simp only [hk] at h
          have := ih h
          simp
          omega

mutual

/-- Model of `RCFJ.writeJSON(struct, proposals, options)`.  The proposal scan comes
first; the fallback renders objects, arrays, `JavascriptExpression`s and
scalars.  `none` models the error paths (an unassigned proposal's `None`
variable, a `KeyError`, or `IncontrovertiblyInconvertible`). -/
def writeJSON (struct : Value) (proposals : List Proposal) (options : Options) :
    Option String :=
  match firstApplying proposals struct with
  | some p => applyProposal p struct proposals options
  | none =>
      match struct with
      | .dict entries => do
          let parts ← writeEntries entries proposals options
          pure ("\x7b" ++ String.intercalate "," parts ++ "\x7d")
      | .list items => do
          let parts ← writeItems items proposals options
          pure ("[" ++ String.intercalate "," parts ++ "]")
      | .expr code => some code
      | v => optimal v options
termination_by (sizeOf struct, 2, 0)
decreasing_by all_goals (simp_wf; first | decreasing_tactic | (constructor <;> omega))

/-- The `for key in struct` loop of the object branch. -/
def writeEntries (entries : List (String × Value)) (proposals : List Proposal)
    (options : Options) : Option (List String) :=
  match entries with
  | [] => some []
  | (k, v) :: rest => do
      let sv ← writeJSON v proposals options
      let srest ← writeEntries rest proposals options
      pure ((if options.keysAreStrings then "\"" ++ k ++ "\":" ++ sv
             else k ++ ":" ++ sv) :: srest)
termination_by (sizeOf entries, 0, 0)
decreasing_by all_goals (simp_wf; first | decreasing_tactic | (constructor <;> omega))

/-- The `for item in struct` loop of the array branch. -/
def writeItems (items : List Value) (proposals : List Proposal)
    (options : Options) : Option (List String) :=
  match items with
  | [] => some []
  | v :: rest => do
      let sv ← writeJSON v proposals options
      let srest ← writeItems rest proposals options
      pure (sv :: srest)
termination_by (sizeOf items, 0, 0)
decreasing_by all_goals (simp_wf; first | decreasing_tactic | (constructor <;> omega))

/-- Model of `Proposal.apply`: a literal proposal renders as its variable; a record
proposal renders `variable(arg, ...)` with the node's values in sorted key
order, each rendered recursively against the same proposals. -/
def applyProposal (p : Proposal) (struct : Value) (proposals : List Proposal)
    (options : Options) : Option String :=
  match p.kind with
  | .literal _ => p.variable'
  | .record _ =>
      match struct with
      | .dict entries => do
          let args ← applyArgs (pySortStrings (entries.map Prod.fst)) entries
            proposals options
          let v ← p.variable'
          pure (v ++ "(" ++ String.intercalate "," args ++ ")")
      | _ => none
termination_by (sizeOf struct, 1, 0)
decreasing_by all_goals (simp_wf; first | decreasing_tactic | (constructor <;> omega))

/-- The `for key in keys: args.append(writeJSON(struct[key], ...))` loop of
`RecordProposal.apply`. -/
def applyArgs (ks : List String) (entries : List (String × Value))
    (proposals : List Proposal) (options : Options) : Option (List String) :=
  match ks with
  | [] => some []
  | k :: krest =>
      match h : entries.lookup k with
      | some v => do
          let sv ← writeJSON v proposals options
          let rest ← applyArgs krest entries proposals options
          pure (sv :: rest)
      | none => none
termination_by (sizeOf entries, 0, sizeOf ks)
decreasing_by all_goals (simp_wf
  <;> first
    | decreasing_tactic
    | (have hvlt : sizeOf v < sizeOf entries := sizeOf_lookup h
       constructor <;> omega)
    | (constructor <;> omega))

end

/-! ### `RCFJ.assign_proposals_greedy` -/

/-- The two-character phase of the assigner: walk the (re-sorted) remaining
proposals, stopping at the first with `savings(2) <= 0`; each assigned
proposal draws `g.next()` from the shared length-2 generator.  `none`
models the `StopIteration` that `g.next()` raises when the generator is
exhausted. -/
def phase2 : List Proposal → List String → Option (List Proposal)
  | [], _ => some []
  | p :: ps, names =>
      if p.savings 2 ≤ 0 then some []
      else
        match names with
        | [] => none
        | n :: rest => (phase2 ps rest).map (fun r => p.assign n :: r)

/-- Model of `RCFJ.assign_proposals_greedy(proposals)`. -/
def assign_proposals_greedy (proposals : List Proposal) : Option (List Proposal) :=
  let sorted := sortDesc (fun p => p.savings 1) proposals
  let take1 := (sorted.take VARIABLE_START.length).takeWhile (fun p => 0 < p.savings 1)
  let assigned1 := take1.enum.map
    (fun e => e.2.assign (String.mk [VARIABLE_START.getD e.1 '?']))
  let rest := sorted.drop assigned1.length
  let rest2 := sortDesc (fun p => p.savings 2) rest
  (phase2 rest2 (VariableGenerator 2)).map (fun r => assigned1 ++ r)

/-- The identifiers of an assigned proposal list. -/
def identsOf (r : List Proposal) : List String := r.filterMap Proposal.variable'

/-! ### The savings closures of the proposal generators -/

/-- The `saved` closure of `generate_symbolized_literal_proposals`:
`(literal_cost*occur) - (varlength*occur + init_cost + varlength)`. -/
def symbolized_saved (literal_cost occur init_cost : Nat) (varlength : Nat) : Int :=
  (literal_cost : Int) * occur - ((varlength : Int) * occur + init_cost + varlength)

/-- The `saved` closure of `generate_record_proposals`:
`occur*(2+keyset_size+2*keyset_len) - (foreword_len + varlength +
occur*(2+varlength+keyset_len))`. -/
def record_saved (occur keyset_size keyset_len foreword_len : Nat)
    (varlength : Nat) : Int :=
  (occur : Int) * (2 + keyset_size + 2 * keyset_len)
    - ((foreword_len : Int) + varlength + occur * (2 + varlength + keyset_len))

/-- The single-character identifier for slot `i`. -/
def slotChar (i : Nat) : String := String.mk [VARIABLE_START.getD i '?']

/-- The scalar constructors of `Value` (the Python scalars `None`, `bool`,
`int`/`long`, `float`/`Decimal`, `unicode`/`str`). -/
def isScalar : Value → Bool
  | .null => true
  | .bool _ => true
  | .int _ => true
  | .float _ => true
  | .str _ => true
  | _ => false

/-! ### Concrete assignment scenarios -/

/-- A minimal proposal: constant savings 1 at every identifier length. -/
def unitLit : Proposal :=
  ⟨fun _ => 1, "%s=0", ProposalKind.literal (Value.int 0), none⟩

/-! ## Theorems -/

/-! ### Digit-string round-trip lemmas -/

theorem toRevDigits_zero (b : Nat) (f : Nat) : toRevDigits b f 0 = [] := by
  cases f <;> simp [toRevDigits]

theorem decValue_nil (b : Nat) : decValue b [] = 0 := rfl

theorem decValue_cons (b d : Nat) (L : List Nat) :
    decValue b (d :: L) = d + b * decValue b L := rfl

theorem decValue_toRevDigits (b : Nat) (hb : 2 ≤ b) :
    ∀ (f n : Nat), n ≤ f → decValue b (toRevDigits b f n) = n := by
  intro f
  induction f with
  | zero => intro n hn; interval_cases n; simp [toRevDigits, decValue]
  | succ f ih =>
      intro n hn
      by_cases h0 : n = 0
      · subst h0; simp [toRevDigits, decValue]
      · have hdiv : n / b ≤ f := by
          have h1 : n / b < n := Nat.div_lt_self (Nat.pos_of_ne_zero h0) hb
          omega
        simp only [toRevDigits, h0, if_false, decValue_cons, ih _ hdiv]
        exact Nat.mod_add_div n b

theorem toRevDigits_lt (b : Nat) (hb : 0 < b) :
    ∀ (f n : Nat), ∀ d ∈ toRevDigits b f n, d < b := by
  intro f
  induction f with
  | zero => intro n d hd; simp [toRevDigits] at hd
  | succ f ih =>
      intro n d hd
      by_cases h0 : n = 0
      · subst h0; simp [toRevDigits] at hd
      · simp only [toRevDigits, h0, if_false, List.mem_cons] at hd
        rcases hd with h | h
        · subst h; exact Nat.mod_lt _ hb
        · exact ih _ _ h

theorem toRevDigits_ne_nil (b : Nat) (f n : Nat) (h0 : n ≠ 0) (hf : 0 < f) :
    toRevDigits b f n ≠ [] := by
  cases f with
  | zero => omega
  | succ f => simp [toRevDigits, h0]

theorem foldl_digits (b : Nat) (val : Char → Nat) (ch : Nat → Char) :
    ∀ (L : List Nat), (∀ d ∈ L, val (ch d) = d) → ∀ (a : Nat),
      List.foldl (fun a c => a * b + val c) a (L.map ch).reverse
        = a * b ^ L.length + decValue b L := by
  intro L
  induction L with
  | nil => intro _ a; simp [decValue]
  | cons d L ih =>
      intro hv a
      have hd : val (ch d) = d := hv d (by simp)
      have hrest : ∀ e ∈ L, val (ch e) = e := fun e he => hv e (by simp [he])
      simp only [List.map_cons, List.reverse_cons, List.foldl_append,
        List.foldl_cons, List.foldl_nil, ih hrest a, hd, decValue_cons,
        List.length_cons]
      ring

theorem digitChar_digit : ∀ d, d < 10 →
    (Nat.digitChar d).isDigit = true ∧ digVal (Nat.digitChar d) = d := by decide

theorem digitChar_hex : ∀ d, d < 16 →
    isHexDig (Nat.digitChar d) = true ∧ hexVal (Nat.digitChar d) = d := by decide

theorem isDigit_ne (c : Char) (h : c.isDigit = true) :
    c ≠ 'e' ∧ c ≠ 'x' ∧ c ≠ '-' := by
  refine ⟨fun hc => ?_, fun hc => ?_, fun hc => ?_⟩ <;>
    (subst hc; exact absurd h (by decide))

/-- The decimal digit characters of `natRepr n`. -/
theorem natRepr_data (n : Nat) (h0 : n ≠ 0) :
    (natRepr n).data = ((toRevDigits 10 n n).map Nat.digitChar).reverse := by
  simp [natRepr, h0]

theorem natRepr_all_digit (n : Nat) :
    ∀ c ∈ (natRepr n).data, c.isDigit = true := by
  intro c hc
  by_cases h0 : n = 0
  · subst h0; simp [natRepr] at hc; subst hc; decide
  · rw [natRepr_data n h0] at hc
    simp only [List.mem_reverse, List.mem_map] at hc
    obtain ⟨d, hd, rfl⟩ := hc
    exact (digitChar_digit d (toRevDigits_lt 10 (by norm_num) n n d hd)).1

theorem natRepr_ne_nil (n : Nat) : (natRepr n).data ≠ [] := by
  by_cases h0 : n = 0
  · subst h0; simp [natRepr]
  · rw [natRepr_data n h0]
    simp only [ne_eq, List.reverse_eq_nil_iff, List.map_eq_nil_iff]
    exact toRevDigits_ne_nil 10 n n h0 (Nat.pos_of_ne_zero h0)

theorem parseDecNat_natRepr (n : Nat) : parseDecNat (natRepr n).data = some n := by
  by_cases h0 : n = 0
  · subst h0; decide
  · have hall : (natRepr n).data.all Char.isDigit = true := by
      rw [List.all_eq_true]; exact natRepr_all_digit n
    rw [natRepr_data n h0]
    rw [natRepr_data n h0] at hall
    have hne : toRevDigits 10 n n ≠ [] :=
      toRevDigits_ne_nil 10 n n h0 (Nat.pos_of_ne_zero h0)
    have hcond : (((toRevDigits 10 n n).map Nat.digitChar).reverse.isEmpty
        || !((toRevDigits 10 n n).map Nat.digitChar).reverse.all Char.isDigit) = false := by
      simp only [hall, Bool.not_true, Bool.or_false, List.isEmpty_iff,
        List.reverse_eq_nil_iff, List.map_eq_nil_iff]
      simp [hne]
    simp only [parseDecNat, hcond, Bool.false_eq_true, if_false]
    rw [foldl_digits 10 digVal Nat.digitChar _
      (fun d hd => (digitChar_digit d (toRevDigits_lt 10 (by norm_num) n n d hd)).2) 0]
    simp [decValue_toRevDigits 10 (by norm_num) n n le_rfl]

theorem hexNatRepr_data (n : Nat) :
    (hexNatRepr n).data = '0' :: 'x' :: hexDigitsOf n := by
  by_cases h0 : n = 0 <;> simp [hexNatRepr, hexDigitsOf, h0]

theorem parseHexNat_hexDigitsOf (n : Nat) : parseHexNat (hexDigitsOf n) = some n := by
  by_cases h0 : n = 0
  · subst h0; decide
  · have hrw : hexDigitsOf n = ((toRevDigits 16 n n).map Nat.digitChar).reverse := by
      simp [hexDigitsOf, h0]
    rw [hrw]
    have hall : (((toRevDigits 16 n n).map Nat.digitChar).reverse).all isHexDig = true := by
      rw [List.all_eq_true]
      intro c hc
      simp only [List.mem_reverse, List.mem_map] at hc
      obtain ⟨d, hd, rfl⟩ := hc
      exact (digitChar_hex d (toRevDigits_lt 16 (by norm_num) n n d hd)).1
    have hne : toRevDigits 16 n n ≠ [] :=
      toRevDigits_ne_nil 16 n n h0 (Nat.pos_of_ne_zero h0)
    have hcond : ((((toRevDigits 16 n n).map Nat.digitChar).reverse).isEmpty
        || !(((toRevDigits 16 n n).map Nat.digitChar).reverse).all isHexDig) = false := by
      simp only [hall, Bool.not_true, Bool.or_false, List.isEmpty_iff,
        List.reverse_eq_nil_iff, List.map_eq_nil_iff]
      simp [hne]
    simp only [parseHexNat, hcond, Bool.false_eq_true, if_false]
    rw [foldl_digits 16 hexVal Nat.digitChar _
      (fun d hd => (digitChar_hex d (toRevDigits_lt 16 (by norm_num) n n d hd)).2) 0]
    simp [decValue_toRevDigits 16 (by norm_num) n n le_rfl]

theorem parseUnsignedLit_hex (n : Nat) :
    parseUnsignedLit ((hexNatRepr n).data) = some n := by
  rw [hexNatRepr_data]
  simp only [parseUnsignedLit, List.take, if_pos, List.drop]
  exact parseHexNat_hexDigitsOf n

/-- Any list consisting of decimal digits and `'e'` cannot begin with `0x`. -/
theorem take2_ne_0x (l : List Char) (h : ∀ c ∈ l, c.isDigit = true ∨ c = 'e') :
    l.take 2 ≠ ['0', 'x'] := by
  intro habs
  have hx : 'x' ∈ l.take 2 := by rw [habs]; simp
  have hx2 : 'x' ∈ l := List.take_subset 2 l hx
  rcases h 'x' hx2 with hc | hc
  · exact absurd hc (by decide)
  · exact absurd hc (by decide)

theorem takeWhile_digits_append (l r : List Char) (h : ∀ c ∈ l, c.isDigit = true) :
    (l ++ 'e' :: r).takeWhile (· != 'e') = l ∧
    (l ++ 'e' :: r).dropWhile (· != 'e') = 'e' :: r := by
  induction l with
  | nil => constructor <;> simp [List.takeWhile_cons, List.dropWhile_cons]
  | cons c l ih =>
      have hc : c ≠ 'e' := (isDigit_ne c (h c (by simp))).1
      have ih2 := ih (fun d hd => h d (by simp [hd]))
      constructor <;>
        simp [List.takeWhile_cons, List.dropWhile_cons, hc, ih2.1, ih2.2]

/-- Evaluating a rendered `<mantissa>e<exponent>` numeric literal. -/
theorem parseUnsignedLit_expform (m k : Nat) :
    parseUnsignedLit ((natRepr m).data ++ 'e' :: (natRepr k).data)
      = some (m * 10 ^ k) := by
  have hm := natRepr_all_digit m
  have hk := natRepr_all_digit k
  have hmem : ∀ c ∈ (natRepr m).data ++ 'e' :: (natRepr k).data,
      c.isDigit = true ∨ c = 'e' := by
    intro c hc
    rcases List.mem_append.mp hc with h | h
    · exact Or.inl (hm c h)
    · rcases List.mem_cons.mp h with h | h
      · exact Or.inr h
      · exact Or.inl (hk c h)
  have hsplit := takeWhile_digits_append (natRepr m).data (natRepr k).data hm
  simp only [parseUnsignedLit, take2_ne_0x _ hmem, if_neg, if_false,
    hsplit.1, hsplit.2, parseDecNat_natRepr, Option.bind_eq_bind,
    Option.some_bind]
  rfl

theorem parseUnsignedLit_digits (n : Nat) :
    parseUnsignedLit ((natRepr n).data) = some n := by
  have hall := natRepr_all_digit n
  have hne := natRepr_ne_nil n
  have h0x : (natRepr n).data.take 2 ≠ ['0', 'x'] :=
    take2_ne_0x _ (fun c hc => Or.inl (hall c hc))
  have htw : (natRepr n).data.takeWhile (· != 'e') = (natRepr n).data := by
    rw [List.takeWhile_eq_self_iff]
    intro c hc
    simpa using (isDigit_ne c (hall c hc)).1
  have hdw : (natRepr n).data.dropWhile (· != 'e') = [] := by
    rw [List.dropWhile_eq_nil_iff]
    intro c hc
    simpa using (isDigit_ne c (hall c hc)).1
  simp only [parseUnsignedLit, h0x, if_neg, if_false, htw, hdw,
    parseDecNat_natRepr]

/-! ### Characterizing the `optimal_int` power loop -/

theorem power_loop_pow (i : Int) : ∀ (fuel s : Nat),
    (∃ j < fuel, ¬ ((10 : Int) ^ (s + j) ∣ i)) →
    ∃ m, power_loop i fuel (10 ^ s) = 10 ^ (s + m) ∧
      ¬ ((10 : Int) ^ (s + m) ∣ i) ∧ (∀ j < m, (10 : Int) ^ (s + j) ∣ i) := by
  intro fuel
  induction fuel with
  | zero => intro s h; obtain ⟨j, hj, _⟩ := h; omega
  | succ fuel ih =>
      intro s h
      have hcast : (((10 ^ s : Nat) : Int)) = (10 : Int) ^ s := by push_cast; ring
      by_cases hdvd : (10 : Int) ^ s ∣ i
      · have hcond : i % ((10 ^ s : Nat) : Int) = 0 := by
          rw [hcast]; exact (Int.dvd_iff_emod_eq_zero).mp hdvd
        have hstep : power_loop i (fuel + 1) (10 ^ s)
            = power_loop i fuel (10 ^ (s + 1)) := by
          show (if i % ((10 ^ s : Nat) : Int) = 0
                then power_loop i fuel (10 ^ s * 10) else 10 ^ s)
              = power_loop i fuel (10 ^ (s + 1))
          rw [if_pos hcond, ← pow_succ]
        obtain ⟨j, hj, hnd⟩ := h
        have hj0 : j ≠ 0 := by
          intro h0; subst h0; simp at hnd; exact hnd hdvd
        obtain ⟨j', rfl⟩ : ∃ j', j = j' + 1 := ⟨j - 1, by omega⟩
        have hrec := ih (s + 1) ⟨j', by omega, by
          have : s + 1 + j' = s + (j' + 1) := by omega
          rwa [this]⟩
        obtain ⟨m, hm1, hm2, hm3⟩ := hrec
        refine ⟨m + 1, ?_, ?_, ?_⟩
        · rw [hstep, hm1]; congr 1; omega
        · have : s + (m + 1) = s + 1 + m := by omega
          rwa [this]
        · intro j hjm
          cases j with
          | zero => simpa using hdvd
          | succ j'' =>
              have : s + (j'' + 1) = s + 1 + j'' := by omega
              rw [this]; exact hm3 j'' (by omega)
      · have hcond : ¬ i % ((10 ^ s : Nat) : Int) = 0 := by
          rw [hcast]; intro h0; exact hdvd ((Int.dvd_iff_emod_eq_zero).mpr h0)
        refine ⟨0, ?_, by simpa using hdvd, by omega⟩
        show (if i % ((10 ^ s : Nat) : Int) = 0
              then power_loop i fuel (10 ^ s * 10) else 10 ^ s) = 10 ^ (s + 0)
        rw [if_neg hcond, Nat.add_zero]

theorem power_loop_spec (i : Int) (h0 : i ≠ 0) (h1000 : i % 1000 = 0) :
    ∃ K, 3 ≤ K ∧ power_loop i i.natAbs 1000 / 10 = 10 ^ K ∧
      ((10 : Int) ^ K ∣ i) ∧ ¬ ((10 : Int) ^ (K + 1) ∣ i) := by
  have hdvd3 : (10 : Int) ^ 3 ∣ i := by
    have h1 : ((1000 : Int)) ∣ i := (Int.dvd_iff_emod_eq_zero).mpr h1000
    have h2 : ((10 : Int) ^ 3) = 1000 := by norm_num
    rw [h2]; exact h1
  have hn1 : 1 ≤ i.natAbs := by
    have := Int.natAbs_pos.mpr h0; omega
  have hfuel : ∃ j < i.natAbs, ¬ ((10 : Int) ^ (3 + j) ∣ i) := by
    refine ⟨i.natAbs - 1, by omega, ?_⟩
    intro hd
    have hnat : (10 : Nat) ^ (3 + (i.natAbs - 1)) ∣ i.natAbs := by
      have h1 := Int.natAbs_dvd_natAbs.mpr hd
      rwa [Int.natAbs_pow] at h1
    have hle : (10 : Nat) ^ (3 + (i.natAbs - 1)) ≤ i.natAbs :=
      Nat.le_of_dvd (by omega) hnat
    have hlt : i.natAbs < 10 ^ i.natAbs := Nat.lt_pow_self (by norm_num) _
    have hmono : (10 : Nat) ^ i.natAbs ≤ 10 ^ (3 + (i.natAbs - 1)) :=
      Nat.pow_le_pow_right (by norm_num) (by omega)
    omega
  have h1000pow : (1000 : Nat) = 10 ^ 3 := by norm_num
  rw [h1000pow]
  obtain ⟨m, hm1, hm2, hm3⟩ := power_loop_pow i i.natAbs 3 hfuel
  have hm0 : m ≠ 0 := by
    intro h; subst h; simp at hm2; exact hm2 hdvd3
  refine ⟨m + 2, by omega, ?_, ?_, ?_⟩
  · rw [hm1]
    have : (10 : Nat) ^ (3 + m) = 10 ^ (m + 2) * 10 := by
      rw [← pow_succ]; congr 1; omega
    rw [this, Nat.mul_div_cancel _ (by norm_num)]
  · have : m + 2 = 3 + (m - 1) := by omega
    rw [this]; exact hm3 (m - 1) (by omega)
  · have : m + 2 + 1 = 3 + m := by omega
    rwa [this]

/-! ### `log10floor` on powers of ten -/

theorem toRevDigits_pow_len : ∀ (K f : Nat), 10 ^ K ≤ f →
    (toRevDigits 10 f (10 ^ K)).length = K + 1 := by
  intro K
  induction K with
  | zero =>
      intro f hf
      obtain ⟨f', rfl⟩ : ∃ f', f = f' + 1 := ⟨f - 1, by omega⟩
      simp [toRevDigits, toRevDigits_zero]
  | succ K ih =>
      intro f hf
      have hx : 1 ≤ (10 : Nat) ^ K := Nat.one_le_pow _ _ (by norm_num)
      have hf1 : 10 ^ K ≤ f - 1 := by
        have : (10 : Nat) ^ (K + 1) = 10 * 10 ^ K := by ring
        omega
      obtain ⟨f', rfl⟩ : ∃ f', f = f' + 1 := ⟨f - 1, by omega⟩
      have hne : (10 : Nat) ^ (K + 1) ≠ 0 := by positivity
      have hdiv : (10 : Nat) ^ (K + 1) / 10 = 10 ^ K := by
        rw [pow_succ, Nat.mul_div_cancel _ (by norm_num)]
      simp only [toRevDigits, hne, if_false, hdiv, List.length_cons]
      rw [ih f' (by omega)]

theorem log10floor_pow (K : Nat) : log10floor (10 ^ K) = K := by
  unfold log10floor
  rw [toRevDigits_pow_len K (10 ^ K) le_rfl]
  omega

/-! ### Parsing rendered integers -/

theorem parseIntLit_intRepr (i : Int) : parseIntLit (intRepr i) = some i := by
  by_cases hneg : i < 0
  · have hdata : (intRepr i).data = '-' :: (natRepr i.natAbs).data := by
      simp [intRepr, hneg, String.data_append]
    simp only [parseIntLit, hdata, if_pos, parseUnsignedLit_digits, Option.map_some']
    congr 1
    omega
  · have hdata : (intRepr i).data = (natRepr i.natAbs).data := by
      simp [intRepr, hneg]
    rcases hdd : (natRepr i.natAbs).data with _ | ⟨c, cs⟩
    · exact absurd hdd (natRepr_ne_nil _)
    · have hc : c.isDigit = true := natRepr_all_digit _ c (by rw [hdd]; simp)
      have hcm : c ≠ '-' := (isDigit_ne c hc).2.2
      have hparse : parseUnsignedLit (c :: cs) = some i.natAbs := by
        rw [← hdd]; exact parseUnsignedLit_digits _
      simp only [parseIntLit, hdata, hdd, hcm, if_false, hparse, Option.map_some']
      congr 1
      omega

theorem parseIntLit_expform (m : Int) (k : Nat) :
    parseIntLit (intRepr m ++ "e" ++ natRepr k) = some (m * 10 ^ k) := by
  have hedata : ("e" : String).data = ['e'] := rfl
  by_cases hneg : m < 0
  · have hdata : (intRepr m ++ "e" ++ natRepr k).data
        = '-' :: ((natRepr m.natAbs).data ++ 'e' :: (natRepr k).data) := by
      simp [intRepr, hneg, String.data_append, hedata]
    simp only [parseIntLit, hdata, if_pos, parseUnsignedLit_expform, Option.map_some']
    rw [Option.some_inj]
    push_cast
    rw [show |m| = -m from abs_of_neg hneg]
    ring
  · have hdata : (intRepr m ++ "e" ++ natRepr k).data
        = (natRepr m.natAbs).data ++ 'e' :: (natRepr k).data := by
      simp [intRepr, hneg, String.data_append, hedata]
    rcases hdd : (natRepr m.natAbs).data with _ | ⟨c, cs⟩
    · exact absurd hdd (natRepr_ne_nil _)
    · have hc : c.isDigit = true := natRepr_all_digit _ c (by rw [hdd]; simp)
      have hcm : c ≠ '-' := (isDigit_ne c hc).2.2
      have hparse : parseUnsignedLit (c :: (cs ++ 'e' :: (natRepr k).data))
          = some (m.natAbs * 10 ^ k) := by
        rw [show c :: (cs ++ 'e' :: (natRepr k).data)
              = (c :: cs) ++ 'e' :: (natRepr k).data from rfl, ← hdd]
        exact parseUnsignedLit_expform _ _
      simp only [parseIntLit, hdata, hdd, List.cons_append, hcm, if_false, hparse,
        Option.map_some']
      rw [Option.some_inj]
      push_cast
      rw [show |m| = m from abs_of_nonneg (by omega)]

theorem optimal_int_eq_exp (i : Int) (allowHex : Bool) (K : Nat)
    (hC : i % 1000 = 0 ∧ i ≠ 0)
    (hpower : power_loop i i.natAbs 1000 / 10 = 10 ^ K) :
    optimal_int i allowHex =
      (if allowHex && (hexRepr i).length
            < (intRepr (Int.fdiv i ((10 ^ K : Nat) : Int)) ++ "e" ++ natRepr K).length
        then hexRepr i
        else intRepr (Int.fdiv i ((10 ^ K : Nat) : Int)) ++ "e" ++ natRepr K) := by
  simp only [optimal_int]
  rw [if_pos hC, hpower, log10floor_pow]

theorem optimal_int_eq_plain (i : Int) (allowHex : Bool)
    (hC : ¬ (i % 1000 = 0 ∧ i ≠ 0)) :
    optimal_int i allowHex =
      (if allowHex && (hexRepr i).length < (intRepr i).length
        then hexRepr i else intRepr i) := by
  simp only [optimal_int]
  rw [if_neg hC]

theorem VARIABLE_START_length : VARIABLE_START.length = 54 := by decide

theorem VARIABLE_MID_length : VARIABLE_MID.length = 64 := by decide

theorem genStep_two_mid (d0 : Nat) (a : Int) (hd0 : d0 < 63) (ha : a < 54) :
    genStep [(d0 : Int), a] = some [((d0 + 1 : Nat) : Int), a] := by
  show carryPass ((d0 : Int) + 1) [a] = _
  have h1 : ¬ ((VARIABLE_MID.length : Int) ≤ (d0 : Int) + 1) := by
    rw [VARIABLE_MID_length]; push_cast; omega
  have h2 : ¬ ((VARIABLE_START.length : Int) ≤ a) := by
    rw [VARIABLE_START_length]; omega
  simp only [carryPass, h1, if_false, h2, Option.map_some']
  push_cast
  rfl

theorem genStep_two_carry (a : Int) (ha : a + 1 < 54) :
    genStep [(63 : Int), a] = some [0, a + 1] := by
  show carryPass ((63 : Int) + 1) [a] = _
  have h1 : ((VARIABLE_MID.length : Int) ≤ (63 : Int) + 1) := by
    rw [VARIABLE_MID_length]; norm_num
  have h2 : ¬ ((VARIABLE_START.length : Int) ≤ a + 1) := by
    rw [VARIABLE_START_length]; omega
  simp only [carryPass, h1, if_true, h2, if_false, Option.map_some']

theorem genStep_two_stop (a : Int) (ha : 54 ≤ a + 1) :
    genStep [(63 : Int), a] = none := by
  show carryPass ((63 : Int) + 1) [a] = _
  have h1 : ((VARIABLE_MID.length : Int) ≤ (63 : Int) + 1) := by
    rw [VARIABLE_MID_length]; norm_num
  have h2 : ((VARIABLE_START.length : Int) ≤ a + 1) := by
    rw [VARIABLE_START_length]; omega
  simp only [carryPass, h1, if_true, h2, Option.map_none']

theorem buildName_two (x a : Int) :
    buildName [x, a] = String.mk [pyChar VARIABLE_START a, pyChar VARIABLE_MID x] := by
  simp [buildName]

theorem buildName_two_name (d0 : Nat) (a : Int) :
    buildName [((d0 : Nat) : Int), a] = mkName2 a d0 := by
  rw [buildName_two, mkName2]

theorem rowFrom_empty (kws : List String) (a : Int) : rowFrom kws a 64 = [] := by
  simp [rowFrom]

theorem rowFrom_succ (kws : List String) (a : Int) (j : Nat) (hj : j < 64) :
    rowFrom kws a j =
      (if kws.contains (mkName2 a j) = true then rowFrom kws a (j + 1)
       else mkName2 a j :: rowFrom kws a (j + 1)) := by
  unfold rowFrom
  have h1 : 64 - j = (64 - (j + 1)) + 1 := by omega
  rw [h1, List.range'_succ, List.map_cons]
  by_cases hc : kws.contains (mkName2 a j) = true
  · simp [List.filter_cons, hc]
  · simp [List.filter_cons, hc]

theorem genLoop_two (kws : List String) :
    ∀ (fuel rows d0 : Nat) (acc : List String), rows ≤ 54 → d0 ≤ 63 →
      63 - d0 + rows * 64 + 1 ≤ fuel →
      genLoop kws fuel [(d0 : Int), (53 : Int) - rows] acc
        = acc.reverse ++ rowFrom kws ((53 : Int) - rows) (d0 + 1)
            ++ genRows kws rows ((53 : Int) - rows + 1) := by
  intro fuel
  induction fuel with
  | zero => intro rows d0 acc _ _ hfuel; omega
  | succ fuel ih =>
      intro rows d0 acc hrows hd0 hfuel
      by_cases hd63 : d0 = 63
      · subst hd63
        have hrow : rowFrom kws ((53 : Int) - rows) (63 + 1) = [] :=
          rowFrom_empty kws _
        cases rows with
        | zero =>
            have hstop : genStep [((63 : Nat) : Int), (53 : Int) - (0 : Nat)] = none := by
              have : ((53 : Int) - (0 : Nat)) = 53 := by norm_num
              rw [this]
              exact genStep_two_stop 53 (by norm_num)
            simp only [genLoop, hstop]
            simp [rowFrom_empty, genRows]
        | succ r =>
            have hcast : ((53 : Int) - (r + 1 : Nat)) + 1 = (53 : Int) - (r : Nat) := by
              push_cast; ring
            have hstep : genStep [((63 : Nat) : Int), (53 : Int) - (r + 1 : Nat)]
                = some [0, ((53 : Int) - (r + 1 : Nat)) + 1] := by
              exact genStep_two_carry _ (by push_cast; omega)
            have hbn : buildName [0, ((53 : Int) - (r + 1 : Nat)) + 1]
                = mkName2 (((53 : Int) - (r + 1 : Nat)) + 1) 0 := by
              have h0 : (0 : Int) = ((0 : Nat) : Int) := rfl
              rw [h0, buildName_two_name]
            have hih := fun acc2 => ih r 0 acc2 (by omega) (by omega) (by omega)
            rw [hcast] at hstep hbn
            have hrsplit : rowFrom kws ((53 : Int) - (r : Nat)) 0
                = (if kws.contains (mkName2 ((53 : Int) - (r : Nat)) 0) = true
                   then rowFrom kws ((53 : Int) - (r : Nat)) 1
                   else mkName2 ((53 : Int) - (r : Nat)) 0
                        :: rowFrom kws ((53 : Int) - (r : Nat)) 1) :=
              rowFrom_succ kws _ 0 (by norm_num)
            by_cases hc : kws.contains (mkName2 ((53 : Int) - (r : Nat)) 0) = true
            · simp only [genLoop, hstep, hbn, hc, if_true]
              have h00 : (0 : Int) = ((0 : Nat) : Int) := rfl
              rw [h00, hih acc]
              simp only [hrow, genRows, hcast, hrsplit, hc, if_true]
              simp
            · simp only [genLoop, hstep, hbn, hc, if_false]
              have h00 : (0 : Int) = ((0 : Nat) : Int) := rfl
              rw [h00, hih (mkName2 ((53 : Int) - (r : Nat)) 0 :: acc)]
              simp only [hrow, genRows, hcast, hrsplit, hc, if_false,
                List.reverse_cons, List.append_nil]
              simp
      · have hstep : genStep [((d0 : Nat) : Int), (53 : Int) - rows]
            = some [((d0 + 1 : Nat) : Int), (53 : Int) - rows] :=
          genStep_two_mid d0 _ (by omega) (by omega)
        have hbn : buildName [((d0 + 1 : Nat) : Int), (53 : Int) - rows]
            = mkName2 ((53 : Int) - rows) (d0 + 1) :=
          buildName_two_name (d0 + 1) _
        have hih := fun acc2 => ih rows (d0 + 1) acc2 hrows (by omega) (by omega)
        have hrsplit : rowFrom kws ((53 : Int) - rows) (d0 + 1)
            = (if kws.contains (mkName2 ((53 : Int) - rows) (d0 + 1)) = true
               then rowFrom kws ((53 : Int) - rows) (d0 + 2)
               else mkName2 ((53 : Int) - rows) (d0 + 1)
                    :: rowFrom kws ((53 : Int) - rows) (d0 + 2)) :=
          rowFrom_succ kws _ (d0 + 1) (by omega)
        by_cases hc : kws.contains (mkName2 ((53 : Int) - rows) (d0 + 1)) = true
        · simp only [genLoop, hstep, hbn, hc, if_true]
          rw [hih acc]
          simp only [hrsplit, hc, if_true]
        · simp only [genLoop, hstep, hbn, hc, if_false]
          rw [hih (mkName2 ((53 : Int) - rows) (d0 + 1) :: acc)]
          simp only [hrsplit, hc, if_false, List.reverse_cons]
          simp

/-- The full content of `VariableGenerator 2`: the `-1` initial state first
yields the tail of the `$` row (second character indices 1..63), and only
then the odometer enumeration of all 54 rows. -/
theorem VariableGenerator_two :
    VariableGenerator 2 = rowFrom kw2 (-1) 1 ++ genRows kw2 54 0 := by
  have hk : KEYWORDS.filter (fun x => x.length == 2) = kw2 := by decide
  show genLoop (KEYWORDS.filter (fun x => x.length == 2)) (64 ^ 2 * 2)
      (List.replicate (2 - 1) 0 ++ [-1]) [] = _
  rw [hk]
  have hst : (List.replicate (2 - 1) (0 : Int) ++ [-1])
      = [((0 : Nat) : Int), (53 : Int) - (54 : Nat)] := by norm_num
  rw [hst, genLoop_two kw2 (64 ^ 2 * 2) 54 0 [] (by norm_num) (by norm_num) (by norm_num)]
  norm_num

/-! ### Facts about the rows of the length-2 generator -/

theorem START_nodup : VARIABLE_START.Nodup := by decide

theorem MID_nodup : VARIABLE_MID.Nodup := by decide

theorem pyChar_nat (l : List Char) (a : Nat) :
    pyChar l ((a : Nat) : Int) = l.getD a '?' := by
  simp [pyChar]

theorem getD_inj_of_nodup (l : List Char) (hl : l.Nodup) (a b : Nat)
    (ha : a < l.length) (hb : b < l.length)
    (h : l.getD a '?' = l.getD b '?') : a = b := by
  rw [l.getD_eq_getElem '?' ha, l.getD_eq_getElem '?' hb] at h
  exact (List.Nodup.getElem_inj_iff hl).mp h

theorem start_inj (a b : Nat) (ha : a < 54) (hb : b < 54)
    (h : pyChar VARIABLE_START ((a : Nat) : Int) = pyChar VARIABLE_START ((b : Nat) : Int)) :
    a = b := by
  rw [pyChar_nat, pyChar_nat] at h
  exact getD_inj_of_nodup _ START_nodup a b
    (by rw [VARIABLE_START_length]; omega) (by rw [VARIABLE_START_length]; omega) h

theorem mid_inj (a b : Nat) (ha : a < 64) (hb : b < 64)
    (h : pyChar VARIABLE_MID ((a : Nat) : Int) = pyChar VARIABLE_MID ((b : Nat) : Int)) :
    a = b := by
  rw [pyChar_nat, pyChar_nat] at h
  exact getD_inj_of_nodup _ MID_nodup a b
    (by rw [VARIABLE_MID_length]; omega) (by rw [VARIABLE_MID_length]; omega) h

theorem pyChar_start_neg_one : pyChar VARIABLE_START (-1) = '$' := by decide

theorem pyChar_start_53 : pyChar VARIABLE_START ((53 : Nat) : Int) = '$' := by decide

theorem pyChar_start_8 : pyChar VARIABLE_START ((8 : Nat) : Int) = 'i' := by decide

theorem pyChar_start_3 : pyChar VARIABLE_START ((3 : Nat) : Int) = 'd' := by decide

theorem start_eq_dollar (a : Nat) (ha : a < 54)
    (h : pyChar VARIABLE_START ((a : Nat) : Int) = '$') : a = 53 :=
  start_inj a 53 ha (by omega) (by rw [h, pyChar_start_53])

theorem start_eq_i (a : Nat) (ha : a < 54)
    (h : pyChar VARIABLE_START ((a : Nat) : Int) = 'i') : a = 8 :=
  start_inj a 8 ha (by omega) (by rw [h, pyChar_start_8])

theorem start_eq_d (a : Nat) (ha : a < 54)
    (h : pyChar VARIABLE_START ((a : Nat) : Int) = 'd') : a = 3 :=
  start_inj a 3 ha (by omega) (by rw [h, pyChar_start_3])

theorem mkName2_head (a : Int) (j : Nat) :
    (mkName2 a j).data = [pyChar VARIABLE_START a, pyChar VARIABLE_MID (j : Int)] := rfl

theorem mkName2_eq_head (a a' : Int) (j j' : Nat) (h : mkName2 a j = mkName2 a' j') :
    pyChar VARIABLE_START a = pyChar VARIABLE_START a' := by
  have hd := congrArg String.data h
  rw [mkName2_head, mkName2_head] at hd
  exact (List.cons.injEq _ _ _ _ ▸ hd).1

/-- Membership in the length-2 keyword list, reduced to the two characters
of the name. -/
theorem contains_kw2 (a : Int) (j : Nat) :
    kw2.contains (mkName2 a j) = true ↔
      ((pyChar VARIABLE_START a = 'i' ∧ pyChar VARIABLE_MID (j : Int) = 'n') ∨
       (pyChar VARIABLE_START a = 'i' ∧ pyChar VARIABLE_MID (j : Int) = 'f') ∨
       (pyChar VARIABLE_START a = 'd' ∧ pyChar VARIABLE_MID (j : Int) = 'o')) := by
  have hdata : ∀ t : String, mkName2 a j = t ↔
      [pyChar VARIABLE_START a, pyChar VARIABLE_MID (j : Int)] = t.data := by
    intro t
    constructor
    · intro h; rw [← h, mkName2_head]
    · intro h
      apply String.ext
      rw [mkName2_head, h]
  simp only [kw2, List.contains_cons, List.contains_nil, Bool.or_false,
    Bool.or_eq_true, beq_iff_eq]
  rw [hdata "in", hdata "if", hdata "do"]
  simp only [show ("in".data) = ['i', 'n'] from rfl,
    show ("if".data) = ['i', 'f'] from rfl,
    show ("do".data) = ['d', 'o'] from rfl,
    List.cons.injEq, and_true]

/-- Rows whose first character is neither `i` nor `d` contain no length-2
keyword. -/
theorem row_no_kw (a : Int) (hi : pyChar VARIABLE_START a ≠ 'i')
    (hd : pyChar VARIABLE_START a ≠ 'd') (j : Nat) :
    kw2.contains (mkName2 a j) = false := by
  rw [Bool.eq_false_iff]
  intro h
  rcases (contains_kw2 a j).mp h with ⟨h1, _⟩ | ⟨h1, _⟩ | ⟨h1, _⟩
  · exact hi h1
  · exact hi h1
  · exact hd h1

theorem rowFrom_eq_of_nokw (kws : List String) (a : Int) (j0 : Nat)
    (h : ∀ j, kws.contains (mkName2 a j) = false) :
    rowFrom kws a j0 = (List.range' j0 (64 - j0)).map (mkName2 a) := by
  unfold rowFrom
  apply List.filter_eq_self.mpr
  intro s hs
  obtain ⟨j, _, rfl⟩ := List.mem_map.mp hs
  simp only [h j, Bool.not_false]

theorem rowFrom_length_of_nokw (kws : List String) (a : Int) (j0 : Nat)
    (h : ∀ j, kws.contains (mkName2 a j) = false) :
    (rowFrom kws a j0).length = 64 - j0 := by
  rw [rowFrom_eq_of_nokw kws a j0 h]
  simp

theorem mkName2_inj_j (a : Int) (j j' : Nat) (hj : j < 64) (hj' : j' < 64)
    (h : mkName2 a j = mkName2 a j') : j = j' := by
  have hd := congrArg String.data h
  rw [mkName2_head, mkName2_head] at hd
  have h2 : pyChar VARIABLE_MID (j : Int) = pyChar VARIABLE_MID (j' : Int) := by
    simpa using hd
  exact mid_inj j j' hj hj' h2

theorem rowFrom_nodup (kws : List String) (a : Int) (j0 : Nat) :
    (rowFrom kws a j0).Nodup := by
  unfold rowFrom
  apply List.Nodup.filter
  apply List.Nodup.map_on
  · intro j hj j' hj' h
    rw [List.mem_range'_1] at hj hj'
    exact mkName2_inj_j a j j' (by omega) (by omega) h
  · exact List.nodup_range' _ _

theorem row3_length : (rowFrom kw2 ((3 : Nat) : Int) 0).length = 63 := by decide

theorem row8_length : (rowFrom kw2 ((8 : Nat) : Int) 0).length = 62 := by decide

theorem genRows_mem (kws : List String) :
    ∀ (r : Nat) (a : Int) (s : String), s ∈ genRows kws r a ↔
      ∃ k, k < r ∧ s ∈ rowFrom kws (a + k) 0 := by
  intro r
  induction r with
  | zero => intro a s; simp [genRows]
  | succ r ih =>
      intro a s
      simp only [genRows, List.mem_append, ih (a + 1)]
      constructor
      · rintro (h | ⟨k, hk, h⟩)
        · exact ⟨0, by omega, by simpa using h⟩
        · exact ⟨k + 1, by omega, by
            have : a + 1 + (k : Int) = a + ((k : Nat) + 1 : Nat) := by push_cast; ring
            rwa [this] at h⟩
      · rintro ⟨k, hk, h⟩
        cases k with
        | zero => exact Or.inl (by simpa using h)
        | succ k' =>
            refine Or.inr ⟨k', by omega, ?_⟩
            have : a + 1 + (k' : Int) = a + ((k' : Nat) + 1 : Nat) := by push_cast; ring
            rwa [this]

theorem genRows_split (kws : List String) :
    ∀ (r s : Nat) (a : Int),
      genRows kws (r + s) a = genRows kws r a ++ genRows kws s (a + r) := by
  intro r
  induction r with
  | zero => intro s a; simp [genRows]
  | succ r ih =>
      intro s a
      have h1 : r + 1 + s = (r + s) + 1 := by omega
      rw [h1]
      simp only [genRows, ih s (a + 1), List.append_assoc]
      have h2 : a + 1 + (r : Int) = a + ((r : Nat) + 1 : Nat) := by push_cast; ring
      rw [h2]

theorem genRows_length (kws : List String) :
    ∀ (r : Nat) (a0 : Nat),
      (genRows kws r (a0 : Int)).length
        = ((List.range r).map
            (fun k => (rowFrom kws ((a0 + k : Nat) : Int) 0).length)).sum := by
  intro r
  induction r with
  | zero => intro a0; simp [genRows]
  | succ r ih =>
      intro a0
      rw [List.range_succ_eq_map]
      simp only [genRows, List.length_append, List.map_cons, List.map_map,
        List.sum_cons, Nat.add_zero]
      have hcast : ((a0 : Int) + 1) = ((a0 + 1 : Nat) : Int) := by push_cast; ring
      rw [hcast, ih (a0 + 1)]
      have hfun : (fun k => (rowFrom kws ((a0 + 1 + k : Nat) : Int) 0).length)
          = ((fun k => (rowFrom kws ((a0 + k : Nat) : Int) 0).length) ∘ fun k => k + 1) := by
        funext k
        simp only [Function.comp]
        rw [show a0 + 1 + k = a0 + (k + 1) from by omega]
      rw [hfun]

theorem genRows_one (kws : List String) (a : Int) :
    genRows kws 1 a = rowFrom kws a 0 := by
  simp [genRows]

theorem genRows_len_nokw : ∀ (r a0 : Nat), a0 + r ≤ 54 →
    (∀ k, k < r → a0 + k ≠ 3 ∧ a0 + k ≠ 8) →
    (genRows kw2 r ((a0 : Nat) : Int)).length = r * 64 := by
  intro r
  induction r with
  | zero => intro a0 _ _; simp [genRows]
  | succ r ih =>
      intro a0 hb h38
      have h0 := h38 0 (by omega)
      have ha0 : a0 < 54 := by omega
      have hni : pyChar VARIABLE_START ((a0 : Nat) : Int) ≠ 'i' := fun h => by
        have := start_eq_i a0 ha0 h; omega
      have hnd : pyChar VARIABLE_START ((a0 : Nat) : Int) ≠ 'd' := fun h => by
        have := start_eq_d a0 ha0 h; omega
      have hcast : ((a0 : Int) + 1) = ((a0 + 1 : Nat) : Int) := by push_cast; ring
      simp only [genRows, List.length_append, hcast]
      rw [rowFrom_length_of_nokw kw2 _ 0 (row_no_kw _ hni hnd),
        ih (a0 + 1) (by omega) (fun k hk => by have := h38 (k + 1) (by omega); omega)]
      omega

theorem genRows_sp1 : genRows kw2 54 (0 : Int) = genRows kw2 3 0 ++ genRows kw2 51 3 := by
  have h := genRows_split kw2 3 51 0
  norm_num at h
  exact h

theorem genRows_sp2 : genRows kw2 51 (3 : Int) = genRows kw2 1 3 ++ genRows kw2 50 4 := by
  have h := genRows_split kw2 1 50 3
  norm_num at h
  exact h

theorem genRows_sp3 : genRows kw2 50 (4 : Int) = genRows kw2 4 4 ++ genRows kw2 46 8 := by
  have h := genRows_split kw2 4 46 4
  norm_num at h
  exact h

theorem genRows_sp4 : genRows kw2 46 (8 : Int) = genRows kw2 1 8 ++ genRows kw2 45 9 := by
  have h := genRows_split kw2 1 45 8
  norm_num at h
  exact h

theorem genRows_sp5 : genRows kw2 45 (9 : Int) = genRows kw2 44 9 ++ genRows kw2 1 53 := by
  have h := genRows_split kw2 44 1 9
  norm_num at h
  exact h

theorem genRows_len1 : (genRows kw2 3 (0 : Int)).length = 192 := by
  have h := genRows_len_nokw 3 0 (by omega) (by intro k hk; omega)
  norm_num at h
  exact h

theorem genRows_len2 : (genRows kw2 1 (3 : Int)).length = 63 := by
  rw [genRows_one]
  have h := row3_length
  norm_num at h
  exact h

theorem genRows_len3 : (genRows kw2 4 (4 : Int)).length = 256 := by
  have h := genRows_len_nokw 4 4 (by omega) (by intro k hk; omega)
  norm_num at h
  exact h

theorem genRows_len4 : (genRows kw2 1 (8 : Int)).length = 62 := by
  rw [genRows_one]
  have h := row8_length
  norm_num at h
  exact h

theorem genRows_len5 : (genRows kw2 45 (9 : Int)).length = 2880 := by
  have h := genRows_len_nokw 45 9 (by omega) (by intro k hk; omega)
  norm_num at h
  exact h

theorem genRows_len5' : (genRows kw2 44 (9 : Int)).length = 2816 := by
  have h := genRows_len_nokw 44 9 (by omega) (by intro k hk; omega)
  norm_num at h
  exact h

theorem genRows54_length : (genRows kw2 54 (0 : Int)).length = 3453 := by
  rw [genRows_sp1, genRows_sp2, genRows_sp3, genRows_sp4]
  simp only [List.length_append, genRows_len1, genRows_len2, genRows_len3,
    genRows_len4, genRows_len5]

theorem genRows53_split : genRows kw2 54 (0 : Int) = genRows kw2 53 0 ++ genRows kw2 1 53 := by
  have h := genRows_split kw2 53 1 0
  norm_num at h
  exact h

theorem genRows53_length : (genRows kw2 53 (0 : Int)).length = 3389 := by
  have h1 : genRows kw2 45 (9 : Int) = genRows kw2 44 9 ++ genRows kw2 1 53 :=
    genRows_sp5
  have h2 := genRows54_length
  rw [genRows53_split] at h2
  have h3 := genRows54_length
  rw [genRows_sp1, genRows_sp2, genRows_sp3, genRows_sp4, genRows_sp5] at h3
  have h4 : (genRows kw2 1 (53 : Int)).length = 64 := by
    rw [genRows_one]
    have h5 : pyChar VARIABLE_START (53 : Int) ≠ 'i' := by decide
    have h6 : pyChar VARIABLE_START (53 : Int) ≠ 'd' := by decide
    have := rowFrom_length_of_nokw kw2 53 0 (row_no_kw 53 h5 h6)
    omega
  simp only [List.length_append] at h2
  omega

/-! ### Distinctness and duplication in the length-2 generator -/

theorem rowFrom_mem (kws : List String) (a : Int) (j0 : Nat) (s : String)
    (hs : s ∈ rowFrom kws a j0) :
    ∃ j, j0 ≤ j ∧ j < 64 ∧ s = mkName2 a j ∧ kws.contains s = false := by
  unfold rowFrom at hs
  obtain ⟨hmem, hkeep⟩ := List.mem_filter.mp hs
  obtain ⟨j, hj, rfl⟩ := List.mem_map.mp hmem
  rw [List.mem_range'_1] at hj
  refine ⟨j, hj.1, by omega, rfl, by simpa using hkeep⟩

theorem genRows_mem_elim (r a0 : Nat) (s : String)
    (hs : s ∈ genRows kw2 r ((a0 : Nat) : Int)) :
    ∃ k j, k < r ∧ j < 64 ∧ s = mkName2 ((a0 + k : Nat) : Int) j := by
  obtain ⟨k, hk, hrow⟩ := (genRows_mem kw2 r _ s).mp hs
  have hc : ((a0 : Nat) : Int) + (k : Nat) = ((a0 + k : Nat) : Int) := by push_cast; ring
  rw [hc] at hrow
  obtain ⟨j, _, hj64, rfl, _⟩ := rowFrom_mem _ _ _ _ hrow
  exact ⟨k, j, hk, hj64, rfl⟩

theorem genRows_nodup : ∀ (r a0 : Nat), a0 + r ≤ 54 →
    (genRows kw2 r ((a0 : Nat) : Int)).Nodup := by
  intro r
  induction r with
  | zero => intro a0 _; simp [genRows]
  | succ r ih =>
      intro a0 hb
      have hcast : ((a0 : Int) + 1) = ((a0 + 1 : Nat) : Int) := by push_cast; ring
      simp only [genRows, hcast]
      rw [List.nodup_append]
      refine ⟨rowFrom_nodup kw2 _ 0, ih (a0 + 1) (by omega), ?_⟩
      intro s hs hs'
      obtain ⟨j, _, hj64, rfl, _⟩ := rowFrom_mem _ _ _ _ hs
      obtain ⟨k, j', _, _, heq⟩ := genRows_mem_elim r (a0 + 1) _ hs'
      have hhead := mkName2_eq_head _ _ _ _ heq
      have := start_inj a0 (a0 + 1 + k) (by omega) (by omega) hhead
      omega

theorem rowTail_no_kw (j : Nat) : kw2.contains (mkName2 (-1) j) = false := by
  apply row_no_kw
  · rw [pyChar_start_neg_one]; decide
  · rw [pyChar_start_neg_one]; decide

theorem rowTail_length : (rowFrom kw2 (-1) 1).length = 63 := by
  rw [rowFrom_length_of_nokw kw2 (-1) 1 rowTail_no_kw]

theorem rowTail_nodup : (rowFrom kw2 (-1) 1).Nodup := rowFrom_nodup kw2 (-1) 1

theorem bName_eq : mkName2 (-1) 1 = "$b" := by decide

theorem aName_eq : mkName2 (-1) 0 = "$a" := by decide

theorem b53_eq : mkName2 53 1 = "$b" := by decide

theorem a53_eq : mkName2 53 0 = "$a" := by decide

theorem mem_rowTail_b : "$b" ∈ rowFrom kw2 (-1) 1 := by
  rw [← bName_eq]
  unfold rowFrom
  apply List.mem_filter.mpr
  refine ⟨List.mem_map.mpr ⟨1, ?_, rfl⟩, by simp only [rowTail_no_kw 1, Bool.not_false]⟩
  rw [List.mem_range'_1]
  omega

theorem rowTail_count_b : (rowFrom kw2 (-1) 1).count "$b" = 1 :=
  List.count_eq_one_of_mem rowTail_nodup mem_rowTail_b

theorem rowTail_not_mem_a : "$a" ∉ rowFrom kw2 (-1) 1 := by
  intro h
  obtain ⟨j, hj1, hj64, heq, _⟩ := rowFrom_mem _ _ _ _ h
  rw [← aName_eq] at heq
  have := mkName2_inj_j (-1) 0 j (by omega) hj64 heq
  omega

/-- The first two names of the final (`$`) row. -/
theorem row53_head : rowFrom kw2 53 0 = "$a" :: "$b" :: rowFrom kw2 53 2 := by
  have h0 : kw2.contains (mkName2 53 0) = false := by decide
  have h1 : kw2.contains (mkName2 53 1) = false := by decide
  rw [rowFrom_succ kw2 53 0 (by omega), h0]
  simp only [Bool.false_eq_true, if_false]
  rw [rowFrom_succ kw2 53 1 (by omega), h1]
  simp only [Bool.false_eq_true, if_false, a53_eq, b53_eq]

theorem genRows53_first_char (s : String) (hs : s ∈ genRows kw2 53 ((0 : Nat) : Int)) :
    ∃ k j, k < 53 ∧ j < 64 ∧ s = mkName2 ((k : Nat) : Int) j := by
  obtain ⟨k, j, hk, hj, heq⟩ := genRows_mem_elim 53 0 s hs
  exact ⟨k, j, hk, hj, by simpa using heq⟩

theorem not_mem_genRows53_b : "$b" ∉ genRows kw2 53 ((0 : Nat) : Int) := by
  intro h
  obtain ⟨k, j, hk, _, heq⟩ := genRows53_first_char _ h
  have hd := congrArg String.data heq
  rw [mkName2_head] at hd
  have hchar : pyChar VARIABLE_START ((k : Nat) : Int) = '$' := by
    have : ("$b").data = ['$', 'b'] := rfl
    rw [this] at hd
    exact ((List.cons.injEq _ _ _ _ ▸ hd).1).symm
  have := start_eq_dollar k (by omega) hchar
  omega

theorem not_mem_genRows53_a : "$a" ∉ genRows kw2 53 ((0 : Nat) : Int) := by
  intro h
  obtain ⟨k, j, hk, _, heq⟩ := genRows53_first_char _ h
  have hd := congrArg String.data heq
  rw [mkName2_head] at hd
  have hchar : pyChar VARIABLE_START ((k : Nat) : Int) = '$' := by
    have : ("$a").data = ['$', 'a'] := rfl
    rw [this] at hd
    exact ((List.cons.injEq _ _ _ _ ▸ hd).1).symm
  have := start_eq_dollar k (by omega) hchar
  omega

theorem rowTail_disj_genRows53 :
    (rowFrom kw2 (-1) 1).Disjoint (genRows kw2 53 ((0 : Nat) : Int)) := by
  intro s hs hs'
  obtain ⟨j, _, _, rfl, _⟩ := rowFrom_mem _ _ _ _ hs
  obtain ⟨k, j', hk, _, heq⟩ := genRows53_first_char _ hs'
  have hhead := mkName2_eq_head _ _ _ _ heq
  rw [pyChar_start_neg_one] at hhead
  have := start_eq_dollar k (by omega) hhead.symm
  omega

/-! ### The master facts about `VariableGenerator 2` -/

theorem gen2_eq : VariableGenerator 2
    = rowFrom kw2 (-1) 1 ++ (genRows kw2 53 0 ++ rowFrom kw2 53 0) := by
  rw [VariableGenerator_two, genRows53_split, genRows_one]

theorem gen2_length : (VariableGenerator 2).length = 3516 := by
  rw [VariableGenerator_two]
  simp only [List.length_append, rowTail_length, genRows54_length]

theorem genRows53_nodup : (genRows kw2 53 (0 : Int)).Nodup := by
  have h := genRows_nodup 53 0 (by omega)
  norm_num at h
  exact h

theorem row53_count_b : (rowFrom kw2 53 0).count "$b" = 1 := by
  rw [row53_head]
  have hne : ("$b" : String) ∉ rowFrom kw2 53 2 := by
    intro h
    obtain ⟨j, hj2, hj64, heq, _⟩ := rowFrom_mem _ _ _ _ h
    rw [← b53_eq] at heq
    have := mkName2_inj_j 53 1 j (by omega) hj64 heq
    omega
  have h0 : (rowFrom kw2 53 2).count "$b" = 0 := List.count_eq_zero.mpr hne
  simp [List.count_cons, h0]

theorem gen2_count_b : (VariableGenerator 2).count "$b" = 2 := by
  rw [gen2_eq]
  have h53 : (genRows kw2 53 (0 : Int)).count "$b" = 0 := by
    apply List.count_eq_zero.mpr
    intro h
    have h' : ("$b" : String) ∈ genRows kw2 53 ((0 : Nat) : Int) := by
      norm_num
      exact h
    exact not_mem_genRows53_b h'
  simp only [List.count_append, rowTail_count_b, h53, row53_count_b]

theorem gen2_take3453 : (VariableGenerator 2).take 3453
    = rowFrom kw2 (-1) 1 ++ (genRows kw2 53 0 ++ ["$a"]) := by
  rw [gen2_eq, List.take_append_eq_append_take,
    List.take_of_length_le (by rw [rowTail_length]; omega), rowTail_length,
    List.take_append_eq_append_take,
    List.take_of_length_le (by rw [genRows53_length]; omega), genRows53_length]
  have h1 : (3453 : Nat) - 63 - 3389 = 1 := by omega
  rw [h1, row53_head]
  rfl

theorem gen2_take3454 : (VariableGenerator 2).take 3454
    = rowFrom kw2 (-1) 1 ++ (genRows kw2 53 0 ++ ["$a", "$b"]) := by
  rw [gen2_eq, List.take_append_eq_append_take,
    List.take_of_length_le (by rw [rowTail_length]; omega), rowTail_length,
    List.take_append_eq_append_take,
    List.take_of_length_le (by rw [genRows53_length]; omega), genRows53_length]
  have h1 : (3454 : Nat) - 63 - 3389 = 2 := by omega
  rw [h1, row53_head]
  rfl

theorem gen2_take3453_nodup : ((VariableGenerator 2).take 3453).Nodup := by
  rw [gen2_take3453]
  rw [List.nodup_append]
  refine ⟨rowTail_nodup, ?_, ?_⟩
  · rw [List.nodup_append]
    refine ⟨genRows53_nodup, by simp, ?_⟩
    intro s hs hs'
    have hsa : s = "$a" := by simpa using hs'
    subst hsa
    have h' : ("$a" : String) ∈ genRows kw2 53 ((0 : Nat) : Int) := by
      norm_num; exact hs
    exact not_mem_genRows53_a h'
  · intro s hs hs'
    rcases List.mem_append.mp hs' with h | h
    · have h' : s ∈ genRows kw2 53 ((0 : Nat) : Int) := by norm_num; exact h
      exact rowTail_disj_genRows53 hs h'
    · have hsa : s = "$a" := by simpa using h
      subst hsa
      exact rowTail_not_mem_a hs

theorem gen2_take_nodup (n : Nat) (hn : n ≤ 3453) :
    ((VariableGenerator 2).take n).Nodup := by
  have h1 : (VariableGenerator 2).take n = ((VariableGenerator 2).take 3453).take n := by
    rw [List.take_take, min_eq_left hn]
  rw [h1]
  exact gen2_take3453_nodup.sublist (List.take_sublist n _)

theorem gen2_take3454_count : ((VariableGenerator 2).take 3454).count "$b" = 2 := by
  rw [gen2_take3454]
  have h53 : (genRows kw2 53 (0 : Int)).count "$b" = 0 := by
    apply List.count_eq_zero.mpr
    intro h
    have h' : ("$b" : String) ∈ genRows kw2 53 ((0 : Nat) : Int) := by
      norm_num; exact h
    exact not_mem_genRows53_b h'
  simp only [List.count_append, rowTail_count_b, h53]
  rfl

/-- Every name yielded by `VariableGenerator 2` has length 2. -/
theorem gen2_all_len2 (s : String) (hs : s ∈ VariableGenerator 2) : s.length = 2 := by
  rw [gen2_eq] at hs
  have hname : ∀ (a : Int) (j : Nat), (mkName2 a j).length = 2 := fun a j => rfl
  rcases List.mem_append.mp hs with h | h
  · obtain ⟨j, _, _, rfl, _⟩ := rowFrom_mem _ _ _ _ h
    exact hname _ _
  · rcases List.mem_append.mp h with h' | h'
    · have h'' : s ∈ genRows kw2 53 ((0 : Nat) : Int) := by norm_num; exact h'
      obtain ⟨k, j, _, _, rfl⟩ := genRows_mem_elim 53 0 s h''
      exact hname _ _
    · obtain ⟨j, _, _, rfl, _⟩ := rowFrom_mem _ _ _ _ h'
      exact hname _ _

/-! ### Grammar of generated names, for any length -/

theorem StOK_of_StRanged : ∀ st, StRanged st → StOK st := by
  intro st
  induction st with
  | nil => intro h; trivial
  | cons d rest ih =>
      cases rest with
      | nil => intro h; exact h.1
      | cons e rest' =>
          intro h
          exact ⟨h.1, ih h.2.2⟩

theorem StOK_inc (e : Int) (rest : List Int) (h : StOK (e :: rest)) :
    StOK ((e + 1) :: rest) := by
  cases rest with
  | nil => show -1 ≤ e + 1; have : (-1 : Int) ≤ e := h; omega
  | cons f r => exact ⟨by have : (0 : Int) ≤ e := h.1; omega, h.2⟩

theorem StRanged_cons_of (d : Int) (t : List Int) (h0 : 0 ≤ d) (h64 : d < 64)
    (ht : StRanged t) (hne : t ≠ []) : StRanged (d :: t) := by
  cases t with
  | nil => exact absurd rfl hne
  | cons e r => exact ⟨h0, h64, ht⟩

theorem carryPass_spec : ∀ (rest : List Int) (d : Int) (st' : List Int),
    StOK (d :: rest) → carryPass d rest = some st' →
    StRanged st' ∧ st'.length = rest.length + 1 := by
  intro rest
  induction rest with
  | nil =>
      intro d st' hok hcp
      unfold carryPass at hcp
      by_cases h54 : (VARIABLE_START.length : Int) ≤ d
      · simp [h54] at hcp
      · simp [h54] at hcp
        subst hcp
        rw [VARIABLE_START_length] at h54
        have hd : (-1 : Int) ≤ d := hok
        exact ⟨⟨hd, by push_cast at h54; omega⟩, rfl⟩
  | cons e rest' ih =>
      intro d st' hok hcp
      unfold carryPass at hcp
      have hd0 : (0 : Int) ≤ d := hok.1
      by_cases h64 : (VARIABLE_MID.length : Int) ≤ d
      · rw [if_pos h64] at hcp
        obtain ⟨t, ht, rfl⟩ := Option.map_eq_some'.mp hcp
        obtain ⟨hrt, hlen⟩ := ih (e + 1) t (StOK_inc e rest' hok.2) ht
        have hne : t ≠ [] := by intro h; rw [h] at hlen; simp at hlen
        exact ⟨StRanged_cons_of 0 t (by omega) (by omega) hrt hne, by simp [hlen]⟩
      · rw [if_neg h64] at hcp
        obtain ⟨t, ht, rfl⟩ := Option.map_eq_some'.mp hcp
        obtain ⟨hrt, hlen⟩ := ih e t hok.2 ht
        have hne : t ≠ [] := by intro h; rw [h] at hlen; simp at hlen
        rw [VARIABLE_MID_length] at h64
        exact ⟨StRanged_cons_of d t hd0 (by push_cast at h64; omega) hrt hne,
          by simp [hlen]⟩

theorem StRanged_reverse : ∀ (st : List Int), StRanged st →
    st = [] ∨ ∃ d rest, st.reverse = d :: rest ∧ (-1 ≤ d ∧ d < 54) ∧
      (∀ x ∈ rest, 0 ≤ x ∧ x < 64) := by
  intro st
  induction st with
  | nil => intro _; exact Or.inl rfl
  | cons d rest ih =>
      cases rest with
      | nil =>
          intro h
          exact Or.inr ⟨d, [], by simp, h, by simp⟩
      | cons e rest' =>
          intro h
          obtain ⟨hd0, hd64, hr⟩ := h
          rcases ih hr with h' | ⟨d', rest0, hrev, hd', hrest0⟩
          · simp at h'
          · refine Or.inr ⟨d', rest0 ++ [d], ?_, hd', ?_⟩
            · rw [List.reverse_cons, hrev]
              rfl
            · intro x hx
              rcases List.mem_append.mp hx with h'' | h''
              · exact hrest0 x h''
              · have : x = d := by simpa using h''
                subst this
                exact ⟨hd0, hd64⟩

theorem pyChar_mem (l : List Char) (i : Int) (hge : -1 ≤ i)
    (hlt : i < l.length) (hne : l ≠ []) : pyChar l i ∈ l := by
  unfold pyChar
  by_cases h0 : (0 : Int) ≤ i
  · rw [if_pos h0]
    have hina : i.toNat < l.length := by omega
    rw [l.getD_eq_getElem '?' hina]
    exact List.getElem_mem hina
  · rw [if_neg h0]
    have hi : i = -1 := by omega
    subst hi
    have hlen : 0 < l.length := List.length_pos.mpr hne
    have h1 : ((-1 : Int)).natAbs ≤ l.length := by simp; omega
    rw [if_pos h1]
    have hina : l.length - (-1 : Int).natAbs < l.length := by simp; omega
    rw [l.getD_eq_getElem '?' hina]
    exact List.getElem_mem hina

theorem buildName_spec (st : List Int) (h : StRanged st) (hne : st ≠ []) :
    (buildName st).length = st.length ∧ isValidIdentifier (buildName st) = true := by
  rcases StRanged_reverse st h with rfl | ⟨d, rest, hrev, hd, hrest⟩
  · exact absurd rfl hne
  · unfold buildName
    rw [hrev]
    constructor
    · show (pyChar VARIABLE_START d :: rest.map (pyChar VARIABLE_MID)).length = st.length
      have : st.length = st.reverse.length := (List.length_reverse st).symm
      rw [this, hrev]
      simp
    · unfold isValidIdentifier
      show (match (pyChar VARIABLE_START d :: rest.map (pyChar VARIABLE_MID)) with
        | [] => false
        | c :: cs => VARIABLE_START.contains c && cs.all fun d => VARIABLE_MID.contains d) = true
      simp only [Bool.and_eq_true]
      constructor
      · apply List.elem_iff.mpr
        apply pyChar_mem VARIABLE_START d hd.1
        · rw [VARIABLE_START_length]; push_cast; omega
        · decide
      · rw [List.all_eq_true]
        intro c hc
        obtain ⟨x, hx, rfl⟩ := List.mem_map.mp hc
        apply List.elem_iff.mpr
        apply pyChar_mem VARIABLE_MID x (by have := (hrest x hx).1; omega)
        · rw [VARIABLE_MID_length]; have := (hrest x hx).2; push_cast; omega
        · decide

theorem genLoop_mem (kws : List String) (L : Nat) (hL : 0 < L) :
    ∀ (fuel : Nat) (st : List Int) (acc : List String) (s : String),
      StOK st → st.length = L → s ∈ genLoop kws fuel st acc →
      s ∈ acc ∨ (s.length = L ∧ isValidIdentifier s = true ∧ kws.contains s = false) := by
  intro fuel
  induction fuel with
  | zero =>
      intro st acc s _ _ hs
      simp only [genLoop, List.mem_reverse] at hs
      exact Or.inl hs
  | succ fuel ih =>
      intro st acc s hok hlen hs
      obtain ⟨d, rest, rfl⟩ : ∃ d rest, st = d :: rest := by
        cases st with
        | nil => simp at hlen; omega
        | cons d rest => exact ⟨d, rest, rfl⟩
      have hred : genLoop kws (fuel + 1) (d :: rest) acc
          = match carryPass (d + 1) rest with
            | none => acc.reverse
            | some st' =>
                if kws.contains (buildName st') = true then genLoop kws fuel st' acc
                else genLoop kws fuel st' (buildName st' :: acc) := rfl
      rw [hred] at hs
      cases hcp : carryPass (d + 1) rest with
      | none =>
          rw [hcp] at hs
          simp only [List.mem_reverse] at hs
          exact Or.inl hs
      | some st' =>
          rw [hcp] at hs
          have hs2 : s ∈ (if kws.contains (buildName st') = true
              then genLoop kws fuel st' acc
              else genLoop kws fuel st' (buildName st' :: acc)) := hs
          have hspec := carryPass_spec rest (d + 1) st' (StOK_inc d rest hok) hcp
          have hlen' : st'.length = L := by rw [hspec.2]; simpa using hlen
          have hok' : StOK st' := StOK_of_StRanged st' hspec.1
          have hne' : st' ≠ [] := by
            intro h; rw [h] at hlen'; simp at hlen'; omega
          by_cases hc : kws.contains (buildName st') = true
          · rw [if_pos hc] at hs2
            exact ih st' acc s hok' hlen' hs2
          · rw [if_neg hc] at hs2
            rcases ih st' (buildName st' :: acc) s hok' hlen' hs2 with h' | h'
            · rcases List.mem_cons.mp h' with h'' | h''
              · subst h''
                obtain ⟨hsl, hsv⟩ := buildName_spec st' hspec.1 hne'
                exact Or.inr ⟨by rw [hsl, hlen'], hsv, by simpa using hc⟩
              · exact Or.inl h''
            · exact Or.inr h'

theorem StOK_init : ∀ (n : Nat), StOK (List.replicate n (0 : Int) ++ [-1]) := by
  intro n
  induction n with
  | zero => show StOK [-1]; show (-1 : Int) ≤ -1; omega
  | succ n ih =>
      show StOK ((0 : Int) :: (List.replicate n (0 : Int) ++ [-1]))
      cases hrep : List.replicate n (0 : Int) ++ [-1] with
      | nil => simp at hrep
      | cons x xs =>
          rw [hrep] at ih
          exact ⟨le_refl 0, ih⟩

/-- Every name yielded by `VariableGenerator L` (for positive `L`) has
length `L`, matches the identifier grammar, and is not a keyword. -/
theorem VariableGenerator_mem (L : Nat) (hL : 0 < L) (s : String)
    (hs : s ∈ VariableGenerator L) :
    s.length = L ∧ isValidIdentifier s = true ∧ s ∉ KEYWORDS := by
  unfold VariableGenerator at hs
  have hok : StOK (List.replicate (L - 1) (0 : Int) ++ [-1]) := StOK_init (L - 1)
  have hlen : (List.replicate (L - 1) (0 : Int) ++ [-1]).length = L := by
    simp; omega
  rcases genLoop_mem _ L hL _ _ [] s hok hlen hs with h | ⟨h1, h2, h3⟩
  · simp at h
  · refine ⟨h1, h2, ?_⟩
    intro hmem
    have hfil : s ∈ KEYWORDS.filter (fun x => x.length == L) :=
      List.mem_filter.mpr ⟨hmem, by simp [h1]⟩
    have helem : (KEYWORDS.filter (fun x => x.length == L)).contains s = true :=
      List.elem_iff.mpr hfil
    rw [h3] at helem
    exact Bool.false_ne_true helem

/-! ### Properties of the greedy assigner -/

theorem insertDesc_const (key : Proposal → Int) (p : Proposal) (l : List Proposal)
    (c : Int) (hp : key p = c) (hl : ∀ q ∈ l, key q = c) :
    insertDesc key p l = p :: l := by
  cases l with
  | nil => rfl
  | cons q qs =>
      have : key q ≤ key p := by rw [hp, hl q (by simp)]
      simp [insertDesc, this]

/-- A stable sort of a constant-key list is the identity. -/
theorem sortDesc_const (key : Proposal → Int) (c : Int) :
    ∀ (l : List Proposal), (∀ q ∈ l, key q = c) → sortDesc key l = l := by
  intro l
  induction l with
  | nil => intro _; rfl
  | cons p ps ih =>
      intro h
      show insertDesc key p (sortDesc key ps) = p :: ps
      rw [ih (fun q hq => h q (by simp [hq]))]
      exact insertDesc_const key p ps c (h p (by simp)) (fun q hq => h q (by simp [hq]))

theorem insertDesc_length (key : Proposal → Int) (p : Proposal) :
    ∀ (l : List Proposal), (insertDesc key p l).length = l.length + 1 := by
  intro l
  induction l with
  | nil => rfl
  | cons q qs ih =>
      show (if key q ≤ key p then p :: q :: qs else q :: insertDesc key p qs).length = _
      by_cases h : key q ≤ key p
      · simp [h]
      · simp [h, ih]

theorem sortDesc_length (key : Proposal → Int) :
    ∀ (l : List Proposal), (sortDesc key l).length = l.length := by
  intro l
  induction l with
  | nil => rfl
  | cons p ps ih =>
      show (insertDesc key p (sortDesc key ps)).length = ps.length + 1
      rw [insertDesc_length, ih]

theorem phase2_none : ∀ (ps : List Proposal) (names : List String),
    (∀ p ∈ ps, 0 < p.savings 2) → names.length < ps.length →
    phase2 ps names = none := by
  intro ps
  induction ps with
  | nil => intro names _ h; simp at h
  | cons p ps ih =>
      intro names hpos hlen
      have hp : ¬ (p.savings 2 ≤ 0) := by have := hpos p (by simp); omega
      show (if p.savings 2 ≤ 0 then some [] else _) = none
      rw [if_neg hp]
      cases names with
      | nil => rfl
      | cons n rest =>
          have : phase2 ps rest = none :=
            ih rest (fun q hq => hpos q (by simp [hq])) (by simp at hlen ⊢; omega)
          simp [this]

theorem phase2_isSome : ∀ (ps : List Proposal) (names : List String),
    ps.length ≤ names.length → (phase2 ps names).isSome = true := by
  intro ps
  induction ps with
  | nil => intro names _; simp [phase2]
  | cons p ps ih =>
      intro names hlen
      show (if p.savings 2 ≤ 0 then some [] else _).isSome = true
      by_cases hp : p.savings 2 ≤ 0
      · rw [if_pos hp]; rfl
      · rw [if_neg hp]
        cases names with
        | nil => simp at hlen
        | cons n rest =>
            have h2 := ih rest (by simp at hlen ⊢; omega)
            obtain ⟨r, hr⟩ := Option.isSome_iff_exists.mp h2
            show ((phase2 ps rest).map (fun r => p.assign n :: r)).isSome = true
            rw [hr]
            rfl

theorem phase2_spec : ∀ (ps : List Proposal) (names : List String)
    (r : List Proposal), phase2 ps names = some r →
    identsOf r = names.take r.length ∧ r.length ≤ names.length := by
  intro ps
  induction ps with
  | nil =>
      intro names r h
      obtain rfl : ([] : List Proposal) = r := Option.some_inj.mp h
      simp [identsOf]
  | cons p ps ih =>
      intro names r h
      rw [show phase2 (p :: ps) names
          = (if p.savings 2 ≤ 0 then some [] else
              match names with
              | [] => none
              | n :: rest => (phase2 ps rest).map (fun r => p.assign n :: r)) from rfl] at h
      by_cases hp : p.savings 2 ≤ 0
      · rw [if_pos hp] at h
        obtain rfl : ([] : List Proposal) = r := Option.some_inj.mp h
        simp [identsOf]
      · rw [if_neg hp] at h
        cases names with
        | nil => simp at h
        | cons n rest =>
            obtain ⟨r', hr', rfl⟩ := Option.map_eq_some'.mp h
            obtain ⟨hid, hlen⟩ := ih rest r' hr'
            constructor
            · show identsOf (p.assign n :: r') = (n :: rest).take (r'.length + 1)
              show n :: identsOf r' = n :: rest.take r'.length
              rw [hid]
            · simp
              omega

theorem phase2_full : ∀ (ps : List Proposal) (names : List String),
    (∀ p ∈ ps, 0 < p.savings 2) → ps.length ≤ names.length →
    ∃ r, phase2 ps names = some r ∧ r.length = ps.length := by
  intro ps
  induction ps with
  | nil => intro names _ _; exact ⟨[], rfl, rfl⟩
  | cons p ps ih =>
      intro names hpos hlen
      have hp : ¬ (p.savings 2 ≤ 0) := by have := hpos p (by simp); omega
      cases names with
      | nil => simp at hlen
      | cons n rest =>
          obtain ⟨r', hr', hlen'⟩ :=
            ih rest (fun q hq => hpos q (by simp [hq])) (by simp at hlen ⊢; omega)
          refine ⟨p.assign n :: r', ?_, by simp [hlen']⟩
          show (if p.savings 2 ≤ 0 then some [] else
              match n :: rest with
              | [] => none
              | n :: rest => (phase2 ps rest).map (fun r => p.assign n :: r)) = _
          rw [if_neg hp]
          simp [hr']

theorem identsOf_enum_assign : ∀ (l : List Proposal) (n : Nat),
    identsOf ((l.enumFrom n).map (fun e => e.2.assign (slotChar e.1)))
      = (List.range' n l.length).map slotChar := by
  intro l
  induction l with
  | nil => intro n; rfl
  | cons p ps ih =>
      intro n
      show identsOf ((p.assign (slotChar n))
          :: (ps.enumFrom (n + 1)).map (fun e => e.2.assign (slotChar e.1)))
        = slotChar n :: (List.range' (n + 1) ps.length).map slotChar
      show slotChar n :: identsOf ((ps.enumFrom (n + 1)).map
          (fun e => e.2.assign (slotChar e.1))) = _
      rw [ih (n + 1)]

/-- Decomposition of a successful greedy assignment: the identifier list is
a block of distinct one-character slots followed by a prefix of the
two-character generator. -/
theorem assign_spec (ps r : List Proposal)
    (h : assign_proposals_greedy ps = some r) :
    ∃ k m, k ≤ 54 ∧
      identsOf r = (List.range' 0 k).map slotChar ++ (VariableGenerator 2).take m := by
  unfold assign_proposals_greedy at h
  obtain ⟨r2, hr2, rfl⟩ := Option.map_eq_some'.mp h
  set sorted := sortDesc (fun p => p.savings 1) ps with hsorted
  set take1 := (sorted.take VARIABLE_START.length).takeWhile (fun p => 0 < p.savings 1)
    with htake1
  refine ⟨take1.length, r2.length, ?_, ?_⟩
  · calc take1.length ≤ (sorted.take VARIABLE_START.length).length :=
          (List.takeWhile_sublist _).length_le
      _ ≤ VARIABLE_START.length := by rw [List.length_take]; omega
      _ = 54 := VARIABLE_START_length
  · show identsOf ((take1.enumFrom 0).map (fun e => e.2.assign (slotChar e.1)) ++ r2) = _
    rw [show identsOf ((take1.enumFrom 0).map (fun e => e.2.assign (slotChar e.1)) ++ r2)
        = identsOf ((take1.enumFrom 0).map (fun e => e.2.assign (slotChar e.1)))
          ++ identsOf r2
      from List.filterMap_append _ _ _]
    rw [identsOf_enum_assign take1 0, (phase2_spec _ _ r2 hr2).1]

theorem slotChar_length (i : Nat) : (slotChar i).length = 1 := rfl

theorem slotChar_ne_two (i : Nat) (s : String) (hs : s.length = 2) : slotChar i ≠ s := by
  intro h
  rw [← h] at hs
  have h1 : (slotChar i).length = 1 := rfl
  omega

theorem slotChar_inj (i j : Nat) (hi : i < 54) (hj : j < 54)
    (h : slotChar i = slotChar j) : i = j := by
  have hd := congrArg String.data h
  have : VARIABLE_START.getD i '?' = VARIABLE_START.getD j '?' := by
    simpa [slotChar] using hd
  exact getD_inj_of_nodup _ START_nodup i j
    (by rw [VARIABLE_START_length]; omega) (by rw [VARIABLE_START_length]; omega) this

theorem slotChar_valid : ∀ i, i < 54 →
    isValidIdentifier (slotChar i) = true ∧ slotChar i ∉ KEYWORDS := by decide

/-! ### The proposal scan of `writeJSON` -/

theorem firstApplying_cons_true (p : Proposal) (ps : List Proposal) (struct : Value)
    (h : p.applies struct = true) : firstApplying (p :: ps) struct = some p := by
  show (if p.applies struct then some p else firstApplying ps struct) = some p
  rw [h]
  rfl

theorem firstApplying_none : ∀ (ps : List Proposal) (struct : Value),
    (∀ q ∈ ps, q.applies struct = false) → firstApplying ps struct = none := by
  intro ps
  induction ps with
  | nil => intro struct _; rfl
  | cons q qs ih =>
      intro struct h
      show (if q.applies struct then some q else firstApplying qs struct) = none
      rw [h q (by simp)]
      show firstApplying qs struct = none
      exact ih struct (fun x hx => h x (by simp [hx]))

theorem firstApplying_append (l r : List Proposal) (struct : Value)
    (h : ∀ q ∈ l, q.applies struct = false) :
    firstApplying (l ++ r) struct = firstApplying r struct := by
  induction l with
  | nil => rfl
  | cons q qs ih =>
      show (if q.applies struct then some q else firstApplying (qs ++ r) struct) = _
      rw [h q (by simp)]
      show firstApplying (qs ++ r) struct = _
      exact ih (fun x hx => h x (by simp [hx]))

/-- The first applicable proposal renders the node, whatever proposals
follow it in the scan order. -/
theorem writeJSON_first_match (struct : Value) (opts : Options)
    (l rts : List Proposal) (p : Proposal)
    (hl : ∀ q ∈ l, q.applies struct = false) (hp : p.applies struct = true) :
    writeJSON struct (l ++ p :: rts) opts
      = applyProposal p struct (l ++ p :: rts) opts := by
  have hfa : firstApplying (l ++ p :: rts) struct = some p := by
    rw [firstApplying_append l (p :: rts) struct hl]
    exact firstApplying_cons_true p rts struct hp
  cases struct <;> (rw [writeJSON, hfa]) <;> first | rfl | simp

/-- A scalar node no proposal applies to falls through to the literal
optimizers. -/
theorem writeJSON_no_match (struct : Value) (opts : Options) (ps : List Proposal)
    (hps : ∀ q ∈ ps, q.applies struct = false) (hs : isScalar struct = true) :
    writeJSON struct ps opts = optimal struct opts := by
  have hfa := firstApplying_none ps struct hps
  cases struct
  case dict entries => simp [isScalar] at hs
  case list items => simp [isScalar] at hs
  case expr code => simp [isScalar] at hs
  all_goals ((rw [writeJSON, hfa]) <;> first | rfl | simp)

/-- Python numeric equality crosses the `bool`/`int` tags: `True == 1`. -/
theorem pyEq_bool_int (b : Bool) (n : Int) :
    pyEq (Value.bool b) (Value.int n) = true ↔ (if b then (1 : Int) else 0) = n := by
  rw [pyEq]
  · show numEqB (if b then 1 else 0, 0) (n, 0) = true ↔ _
    simp [numEqB]
  all_goals simp

theorem pyEq_str (s t : String) : pyEq (Value.str s) (Value.str t) = (s == t) := by
  rw [pyEq]
  · rfl
  all_goals simp

theorem applies_literal (sv : Nat → Int) (fw : String) (x : Option String)
    (v struct : Value) :
    (Proposal.mk sv fw (ProposalKind.literal v) x).applies struct = pyEq struct v := rfl

theorem applies_record (sv : Nat → Int) (fw : String) (x : Option String)
    (ks : List String) (struct : Value) :
    (Proposal.mk sv fw (ProposalKind.record ks) x).applies struct = true ↔
      ∃ entries, struct = Value.dict entries
        ∧ pySortStrings (entries.map Prod.fst) = ks := by
  cases struct <;> simp [Proposal.applies]

theorem takeWhile_all (p : Proposal → Bool) :
    ∀ (l : List Proposal), (∀ x ∈ l, p x = true) → l.takeWhile p = l := by
  intro l
  induction l with
  | nil => intro _; rfl
  | cons q qs ih =>
      intro h
      rw [List.takeWhile_cons_of_pos (h q (by simp)),
        ih (fun x hx => h x (by simp [hx]))]

theorem isSome_map (f : List Proposal → List Proposal) (o : Option (List Proposal))
    (h : o.isSome = true) : (o.map f).isSome = true := by
  cases o with
  | none => exact absurd h (by simp)
  | some r => rfl

/-- Evaluating `assign_proposals_greedy` on `N >= 54` copies of `unitLit`: the sorts are
the identity, phase 1 takes the first 54, and the rest reaches phase 2. -/
theorem assign_replicate (N : Nat) (h54 : 54 ≤ N) :
    assign_proposals_greedy (List.replicate N unitLit)
      = (phase2 (List.replicate (N - 54) unitLit) (VariableGenerator 2)).map
          (fun r => ((List.replicate 54 unitLit).enum.map
              (fun e => e.2.assign (slotChar e.1))) ++ r) := by
  have hmem : ∀ q ∈ List.replicate N unitLit, q = unitLit :=
    fun q hq => List.eq_of_mem_replicate hq
  have hmem54 : ∀ q ∈ List.replicate 54 unitLit, q = unitLit :=
    fun q hq => List.eq_of_mem_replicate hq
  have hmemR : ∀ q ∈ List.replicate (N - 54) unitLit, q = unitLit :=
    fun q hq => List.eq_of_mem_replicate hq
  simp only [assign_proposals_greedy]
  rw [sortDesc_const _ 1 _ (fun q hq => by rw [hmem q hq]; rfl)]
  rw [show (List.replicate N unitLit).take VARIABLE_START.length
      = List.replicate 54 unitLit from by
    rw [List.take_replicate, VARIABLE_START_length, Nat.min_eq_left h54]]
  rw [takeWhile_all _ _ (fun x hx => by rw [hmem54 x hx]; rfl)]
  rw [show (((List.replicate 54 unitLit).enum.map
      (fun e => e.2.assign (String.mk [VARIABLE_START.getD e.1 '?']))).length) = 54 from by
    rw [List.length_map, List.enum_length, List.length_replicate]]
  rw [List.drop_replicate]
  rw [sortDesc_const _ 1 _ (fun q hq => by rw [hmemR q hq]; rfl)]
  rfl

/-! ### The claims -/

/-- Claim C1: the round-trip property fails.  The input JSON number `0e0`,
read with `parse_float=decimal.Decimal` as `Decimal('0E+0')` (coefficient
digits `[0]`, exponent `0`), serializes under default options and no
proposals to the EMPTY string: `str(abs(f)).lstrip('0')` strips the whole
rendering `"0"`.  No evaluator parses the empty text back to the input. -/
theorem C1_zero_decimal_writes_empty :
    writeJSON (Value.float ⟨false, [0], 0⟩) [] get_default_options = some "" := by
  rw [writeJSON]
  · rfl
  all_goals simp

/-- Claim C2: the all-integer round trip fails.  At `i = 10^20 + 1` with
hex allowed, the program compares `len(hex(i)) = 20` (with the Python 2
`L` suffix on the `long`) against the 21-digit decimal, takes the hex
branch and returns `'0x56bc75e2d63100001L'` — which no JS numeric-literal
evaluator, including this file's own `parseIntLit`, parses at all. -/
theorem C2_hex_long_unparseable :
    optimal_int (10 ^ 20 + 1) true = "0x56bc75e2d63100001L"
    ∧ parseIntLit "0x56bc75e2d63100001L" = none := by
  constructor
  · decide
  · decide

/-- Claim C3 (amended): every name yielded by `VariableGenerator L` for
positive `L` has length `L`, matches the identifier grammar
(`VARIABLE_START` at position 0, `VARIABLE_MID` later) and is not a
keyword; for `L = 1` the yield is exactly `VARIABLE_START` in order (hence
distinct), and `VariableGenerator 2` yields 3516 names.  The claimed
pairwise distinctness fails in general: see the counterexample. -/
theorem C3_generator_properties :
    (∀ (L : Nat), 0 < L → ∀ s ∈ VariableGenerator L,
        s.length = L ∧ isValidIdentifier s = true ∧ s ∉ KEYWORDS)
    ∧ VariableGenerator 1 = VARIABLE_START.map (fun c => String.mk [c])
    ∧ (VariableGenerator 2).length = 3516 := by
  refine ⟨?_, by decide, gen2_length⟩
  intro L hL s hs
  exact VariableGenerator_mem L hL s hs

/-- Claim C3 counterexample: the `state[0] = -1` initialisation makes
position 0 start at `VARIABLE_START[-1] = '$'`, so the `'$'`-row is
enumerated twice; `"$b"` is yielded twice by `VariableGenerator 2` (the
claimed pairwise distinctness fails). -/
theorem C3_duplicate_name : (VariableGenerator 2).count "$b" = 2 :=
  gen2_count_b

/-- Claim C4 (amended): in any successful greedy assignment every assigned
identifier matches the identifier grammar and is not a reserved word; the
identifiers are pairwise distinct whenever at most 3453 two-character
identifiers are assigned (beyond that the duplicated generator names are
reached: see the counterexample). -/
theorem C4_identifier_properties (ps r : List Proposal)
    (h : assign_proposals_greedy ps = some r) :
    (∀ v ∈ identsOf r, isValidIdentifier v = true ∧ v ∉ KEYWORDS)
    ∧ ((identsOf r).countP (fun v => v.length == 2) ≤ 3453 → (identsOf r).Nodup) := by
  obtain ⟨k, m, hk, hid⟩ := assign_spec ps r h
  constructor
  · intro v hv
    rw [hid] at hv
    rcases List.mem_append.mp hv with h1 | h2
    · obtain ⟨i, hi, rfl⟩ := List.mem_map.mp h1
      have hi' : i < 54 := by
        have := List.mem_range'_1.mp hi
        omega
      exact slotChar_valid i hi'
    · have hmem : v ∈ VariableGenerator 2 := List.take_subset m _ h2
      obtain ⟨_, h2', h3'⟩ := VariableGenerator_mem 2 (by omega) v hmem
      exact ⟨h2', h3'⟩
  · intro hcnt
    rw [hid] at hcnt ⊢
    rw [List.countP_append] at hcnt
    have hc1 : ((List.range' 0 k).map slotChar).countP (fun v => v.length == 2) = 0 := by
      rw [List.countP_eq_zero]
      intro v hv
      obtain ⟨i, hi, rfl⟩ := List.mem_map.mp hv
      simp [slotChar_length]
    have hc2 : ((VariableGenerator 2).take m).countP (fun v => v.length == 2)
        = ((VariableGenerator 2).take m).length := by
      rw [List.countP_eq_length]
      intro v hv
      have hv2 := gen2_all_len2 v (List.take_subset m _ hv)
      simp [hv2]
    rw [hc1, hc2, List.length_take, gen2_length] at hcnt
    have hm : m ≤ 3453 := by omega
    apply List.nodup_append.mpr
    refine ⟨?_, gen2_take_nodup m hm, ?_⟩
    · apply List.Nodup.map_on
      · intro i hi j hj hij
        have hi' : i < 54 := by have := List.mem_range'_1.mp hi; omega
        have hj' : j < 54 := by have := List.mem_range'_1.mp hj; omega
        exact slotChar_inj i j hi' hj' hij
      · exact List.nodup_range' 0 k
    · intro a ha hb
      obtain ⟨i, hi, rfl⟩ := List.mem_map.mp ha
      have h2 := gen2_all_len2 _ (List.take_subset m _ hb)
      rw [slotChar_length] at h2
      exact absurd h2 (by decide)

theorem C4_identifier_properties_witness :
    (∀ v ∈ identsOf [Proposal.assign unitLit "a"],
        isValidIdentifier v = true ∧ v ∉ KEYWORDS)
    ∧ ((identsOf [Proposal.assign unitLit "a"]).countP (fun v => v.length == 2) ≤ 3453
        → (identsOf [Proposal.assign unitLit "a"]).Nodup) :=
  C4_identifier_properties [unitLit] [Proposal.assign unitLit "a"] rfl

/-- Claim C4 counterexample: with 3508 equal proposals the assigner
succeeds and hands out `"$b"` twice (the 54 one-character slots plus 3454
generator names reach the generator's first duplicate). -/
theorem C4_duplicate_assigned_identifier :
    (assign_proposals_greedy (List.replicate 3508 unitLit)).map
        (fun r => (identsOf r).count "$b") = some 2 := by
  rw [assign_replicate 3508 (by omega)]
  obtain ⟨r2, hr2, hlen⟩ := phase2_full (List.replicate (3508 - 54) unitLit)
      (VariableGenerator 2)
      (fun p hp => by rw [List.eq_of_mem_replicate hp]; decide)
      (by rw [List.length_replicate, gen2_length]; omega)
  rw [hr2]
  rw [show (3508 : Nat) - 54 = 3454 from by norm_num] at hlen
  rw [List.length_replicate] at hlen
  obtain ⟨hid, _⟩ := phase2_spec _ _ r2 hr2
  rw [hlen] at hid
  rw [Option.map_some', Option.map_some', Option.some_inj]
  rw [show identsOf (((List.replicate 54 unitLit).enum.map
        (fun e => e.2.assign (slotChar e.1))) ++ r2)
      = identsOf ((List.replicate 54 unitLit).enum.map
        (fun e => e.2.assign (slotChar e.1))) ++ identsOf r2
    from List.filterMap_append _ _ _]
  rw [show (List.replicate 54 unitLit).enum = (List.replicate 54 unitLit).enumFrom 0
    from rfl]
  rw [identsOf_enum_assign, hid, List.length_replicate, List.count_append]
  rw [gen2_take3454_count]
  have h1 : ((List.range' 0 54).map slotChar).count "$b" = 0 := by
    rw [List.count_eq_zero]
    intro hmem
    obtain ⟨i, _, he⟩ := List.mem_map.mp hmem
    exact slotChar_ne_two i "$b" (by decide) he
  rw [h1]

/-- Claim C5 (amended): the one-character pool has 54 slots, not 53
(`VARIABLE_START` holds 52 letters plus `_` plus `$`); the one-character
identifiers of any successful assignment are the first `k ≤ 54` pool slots
in order, and exactly `k` proposals receive a one-character identifier. -/
theorem C5_phase1_pool (ps r : List Proposal)
    (h : assign_proposals_greedy ps = some r) :
    VARIABLE_START.length = 54
    ∧ ∃ k ≤ 54, (identsOf r).countP (fun v => v.length == 1) = k
        ∧ (identsOf r).take k = (List.range' 0 k).map slotChar := by
  obtain ⟨k, m, hk, hid⟩ := assign_spec ps r h
  refine ⟨VARIABLE_START_length, k, hk, ?_, ?_⟩
  · rw [hid, List.countP_append]
    have hc1 : ((List.range' 0 k).map slotChar).countP (fun v => v.length == 1)
        = ((List.range' 0 k).map slotChar).length := by
      rw [List.countP_eq_length]
      intro v hv
      obtain ⟨i, hi, rfl⟩ := List.mem_map.mp hv
      simp [slotChar_length]
    have hc2 : ((VariableGenerator 2).take m).countP (fun v => v.length == 1) = 0 := by
      rw [List.countP_eq_zero]
      intro v hv
      have hv2 := gen2_all_len2 v (List.take_subset m _ hv)
      simp [hv2]
    rw [hc1, hc2, List.length_map, List.length_range']
    omega
  · rw [hid, List.take_left']
    rw [List.length_map, List.length_range']

theorem C5_phase1_pool_witness :
    VARIABLE_START.length = 54
    ∧ ∃ k ≤ 54, (identsOf [Proposal.assign unitLit "a"]).countP
          (fun v => v.length == 1) = k
        ∧ (identsOf [Proposal.assign unitLit "a"]).take k
          = (List.range' 0 k).map slotChar :=
  C5_phase1_pool [unitLit] [Proposal.assign unitLit "a"] rfl

/-- Claim C5 counterexample: 54 viable proposals all receive one-character
identifiers, so the pool has 54 slots, not the claimed 53. -/
theorem C5_54_one_char_identifiers :
    (assign_proposals_greedy (List.replicate 54 unitLit)).map
        (fun r => (identsOf r).countP (fun v => v.length == 1)) = some 54 := by
  decide

/-- Claim C6 (amended): greedy assignment succeeds whenever at most 3516
proposals are offered (phase 1 truncation is normal; phase 2 draws from
the 3516-name two-character generator); exhausting the phase-2 generator
raises `StopIteration` instead of truncating: see the counterexample. -/
theorem C6_assignment_total (ps : List Proposal) (h : ps.length ≤ 3516) :
    (assign_proposals_greedy ps).isSome = true := by
  simp only [assign_proposals_greedy]
  apply isSome_map
  apply phase2_isSome
  rw [sortDesc_length, List.length_drop, sortDesc_length, gen2_length]
  omega

theorem C6_assignment_total_witness :
    (assign_proposals_greedy [unitLit]).isSome = true :=
  C6_assignment_total [unitLit] (by decide)

/-- Claim C6 counterexample: with 3600 viable proposals phase 2 needs 3546
names but the generator yields 3516, so `g.next()` raises `StopIteration`
and the assignment fails instead of truncating. -/
theorem C6_exhaustion_failure :
    assign_proposals_greedy (List.replicate 3600 unitLit) = none := by
  rw [assign_replicate 3600 (by omega)]
  rw [phase2_none (List.replicate (3600 - 54) unitLit) (VariableGenerator 2)
      (fun p hp => by rw [List.eq_of_mem_replicate hp]; decide)
      (by rw [List.length_replicate, gen2_length]; omega)]
  rfl

/-- Claim C7 (amended): proposals are tested in order and the first
applicable one renders the node; a literal proposal applies exactly when
Python `==` holds between the node and its value, which crosses numeric
tags (`True == 1`); a record proposal applies exactly to object nodes
whose sorted key list equals its key tuple. -/
theorem C7_application_semantics :
    (∀ (struct : Value) (opts : Options) (l rts : List Proposal) (p : Proposal),
        (∀ q ∈ l, q.applies struct = false) → p.applies struct = true →
        writeJSON struct (l ++ p :: rts) opts
          = applyProposal p struct (l ++ p :: rts) opts)
    ∧ (∀ (sv : Nat → Int) (fw : String) (x : Option String) (v struct : Value),
        (Proposal.mk sv fw (ProposalKind.literal v) x).applies struct = pyEq struct v)
    ∧ (∀ (b : Bool) (n : Int),
        pyEq (Value.bool b) (Value.int n) = true ↔ (if b then (1 : Int) else 0) = n)
    ∧ (∀ (sv : Nat → Int) (fw : String) (x : Option String) (ks : List String)
          (struct : Value),
        (Proposal.mk sv fw (ProposalKind.record ks) x).applies struct = true ↔
          ∃ entries, struct = Value.dict entries
            ∧ pySortStrings (entries.map Prod.fst) = ks) :=
  ⟨writeJSON_first_match, applies_literal, pyEq_bool_int, applies_record⟩

/-- Claim C7 counterexample: a proposal for the integer `1` applies to a
Boolean `true` node (Python `True == 1`), and `writeJSON` substitutes its
variable for the Boolean. -/
theorem C7_cross_type_substitution :
    Proposal.applies ⟨fun _ => 1, "", ProposalKind.literal (Value.int 1), some "x"⟩
      (Value.bool true) = true
    ∧ writeJSON (Value.bool true)
        [⟨fun _ => 1, "", ProposalKind.literal (Value.int 1), some "x"⟩]
        get_default_options = some "x" := by
  have hap : Proposal.applies
      ⟨fun _ => 1, "", ProposalKind.literal (Value.int 1), some "x"⟩
      (Value.bool true) = true := by
    show pyEq (Value.bool true) (Value.int 1) = true
    rw [pyEq]
    · rfl
    all_goals simp
  refine ⟨hap, ?_⟩
  rw [writeJSON, firstApplying_cons_true _ _ _ hap]
  · show applyProposal
        ⟨fun _ => 1, "", ProposalKind.literal (Value.int 1), some "x"⟩
        (Value.bool true)
        [⟨fun _ => 1, "", ProposalKind.literal (Value.int 1), some "x"⟩]
        get_default_options = some "x"
    rw [applyProposal]
    all_goals simp
  all_goals simp

/-- Claim C10: both proposal generators' savings closures are strictly
decreasing in the identifier length, so a candidate not viable at length 1
is not viable at length 2 either. -/
theorem C10_savings_strictly_decreasing :
    (∀ (lc occ ic n : Nat), 1 ≤ occ →
        symbolized_saved lc occ ic (n + 1) < symbolized_saved lc occ ic n)
    ∧ (∀ (occ ks kl fw n : Nat), 1 ≤ occ →
        record_saved occ ks kl fw (n + 1) < record_saved occ ks kl fw n)
    ∧ (∀ (lc occ ic : Nat), 1 ≤ occ →
        symbolized_saved lc occ ic 1 ≤ 0 → symbolized_saved lc occ ic 2 ≤ 0)
    ∧ (∀ (occ ks kl fw : Nat), 1 ≤ occ →
        record_saved occ ks kl fw 1 ≤ 0 → record_saved occ ks kl fw 2 ≤ 0) := by
  refine ⟨?_, ?_, ?_, ?_⟩
  · intro lc occ ic n h
    have h' : (1 : Int) ≤ (occ : Int) := by exact_mod_cast h
    simp only [symbolized_saved]
    push_cast
    nlinarith
  · intro occ ks kl fw n h
    have h' : (1 : Int) ≤ (occ : Int) := by exact_mod_cast h
    simp only [record_saved]
    push_cast
    nlinarith
  · intro lc occ ic h h1
    have h' : (1 : Int) ≤ (occ : Int) := by exact_mod_cast h
    simp only [symbolized_saved] at h1 ⊢
    push_cast at h1 ⊢
    nlinarith
  · intro occ ks kl fw h h1
    have h' : (1 : Int) ≤ (occ : Int) := by exact_mod_cast h
    simp only [record_saved] at h1 ⊢
    push_cast at h1 ⊢
    nlinarith

end RCFJ
